import Mathlib

/-
Verification development for the forge-tree Python implementation.

The parser (src/forge_tree/parser/tree_parser.py) and the generator
(src/forge_tree/generator/file_generator.py) are embedded shallowly:
strings are Lean `String`s, character scans work on `String.data`,
exceptions become `Except`/explicit error values carrying the Python
exception class as a tag (errors.py defines the class hierarchy), and
the filesystem touched by the generator is modelled as a pair of maps
(directories present, file contents).
-/

namespace ForgeTree

/-! ### Character classes used by the parser -/

/-- Connector glyphs: the characters counted by `_get_depth`
(`if char in '├└│'`). -/
def isConnector (c : Char) : Bool := c = '├' || c = '└' || c = '│'

/-- Characters skipped (without affecting depth) by `_get_depth`
(`elif char in '─ \t'`). -/
def isSkipChar (c : Char) : Bool := c = '─' || c = ' ' || c = '\t'

/-- The full set of tree-drawing/whitespace characters removed by
`_parse_line` (`char not in '│├└─ \t'`). -/
def isTreeOrSpace (c : Char) : Bool := isConnector c || isSkipChar c

/-- Python `str.strip()` whitespace characters (ASCII subset). -/
def isPyWs (c : Char) : Bool :=
  c = ' ' || c = '\t' || c = '\n' || c = '\r' || c = '\x0b' || c = '\x0c'

/-- Remove the longest suffix of characters satisfying `p`
(Python `str.rstrip`). -/
def rstripWith (p : Char → Bool) : List Char → List Char
  | [] => []
  | c :: cs =>
    match rstripWith p cs with
    | [] => if p c then [] else [c]
    | r => c :: r

/-- Python `line.rstrip()` on the character list. -/
def rstripWs : List Char → List Char := rstripWith isPyWs

/-- Python `content.rstrip('/')` on the character list. -/
def rstripSlash : List Char → List Char := rstripWith (fun c => c = '/')

/-- Python `line.strip()` on the character list: drop leading and
trailing whitespace. -/
def stripWs (cs : List Char) : List Char := rstripWs (cs.dropWhile isPyWs)

/-- Python `line.rstrip()` at the `String` level. -/
def pyRstrip (s : String) : String := ⟨rstripWs s.data⟩

/-! ### Error model (errors.py)

errors.py defines `ForgeTreeError` and subclasses `ParseError`,
`GenerationError`, `TemplateError`.  The parser and the generator
only ever raise the base class `ForgeTreeError`; the class of a
raised exception is recorded in the `cls` tag.  `osError` stands for
exceptions raised by the OS/pathlib layer (not ForgeTreeError
subclasses). -/

inductive ErrClass where
  | forgeTreeError
  | parseError
  | generationError
  | templateError
  | osError
  deriving DecidableEq

structure Err where
  cls : ErrClass
  msg : String
  deriving DecidableEq

/-- An exception `raise ForgeTreeError(m)`. -/
def ftErr (m : String) : Err := ⟨.forgeTreeError, m⟩

/-- An OS-level exception (file-exists / not-a-directory and similar). -/
def osErr (m : String) : Err := ⟨.osError, m⟩

/-! ### Data model (tree_parser.py) -/

inductive ItemType where
  | file
  | directory
  deriving DecidableEq

/-- `StructureItem(name, item_type, children, template, content)`. -/
inductive StructureItem where
  | mk (name : String) (item_type : ItemType) (children : List StructureItem)
      (template : Option String) (content : Option String)

def StructureItem.name : StructureItem → String
  | .mk n _ _ _ _ => n

def StructureItem.item_type : StructureItem → ItemType
  | .mk _ t _ _ _ => t

def StructureItem.children : StructureItem → List StructureItem
  | .mk _ _ ch _ _ => ch

def StructureItem.template : StructureItem → Option String
  | .mk _ _ _ t _ => t

def StructureItem.content : StructureItem → Option String
  | .mk _ _ _ _ c => c

/-- `ProjectStructure(root, items, variables)`; `vars` models the
`variables` string-to-string mapping, empty after parsing. -/
structure ProjectStructure where
  root : String
  items : List StructureItem
  vars : List (String × String)

/-! ### The parser (tree_parser.py) -/

/-- `TreeParser._get_depth`: scan characters left to right; connector
glyphs increment the counter, `─`/space/tab are skipped, any other
character stops the scan. -/
def depthAux : List Char → Nat
  | [] => 0
  | c :: cs =>
    if isConnector c then depthAux cs + 1
    else if isSkipChar c then depthAux cs
    else 0

def get_depth (l : String) : Nat := depthAux l.data

/-- The cleaned content of a line computed by `_parse_line`:
`''.join(char for char in line if char not in '│├└─ \t').strip()`. -/
def lineContent (l : String) : List Char :=
  stripWs (l.data.filter (fun c => !isTreeOrSpace c))

/-- Python `content.endswith('/')`. -/
def endsSlash (cs : List Char) : Bool := decide (cs.getLast? = some '/')

/-- `TreeParser._parse_line`: returns the cleaned name and the
is-directory flag, failing on empty content. -/
def parse_line (l : String) : Except Err (String × Bool) :=
  let content := lineContent l
  if content.isEmpty then
    .error (ftErr ("Empty name in line: " ++ l))
  else
    .ok (⟨rstripSlash content⟩, endsSlash content || !content.contains '.')

/-- `StructureItem(name=name, item_type=DIRECTORY if is_directory else
FILE)` — children default to `[]`, template/content to `None`. -/
def mkItem (p : String × Bool) : StructureItem :=
  .mk p.1 (if p.2 then .directory else .file) [] none none

/-- The two mutations `items[-1].children = children` and
`items[-1].item_type = ItemType.DIRECTORY` performed on the previous
sibling when a deeper group has been parsed. -/
def setChildrenDir : StructureItem → List StructureItem → StructureItem
  | .mk n _ _ t c, ch => .mk n .directory ch t c

/-- `TreeParser._parse_structure(lines, start_index, current_depth)`.

The Python loop walks an index over `lines`; here the lines not yet
consumed are passed as a list and the items built so far at the
current depth are accumulated in reverse in `acc` (Python appends to
`items` and mutates `items[-1]`).  When the next line is deeper than
the current depth the Python code recurses at the deeper depth
starting at that same line; since that recursive call immediately
consumes the first line as a sibling of the deeper group, the
embedding parses that line and recurses on the remainder, which is
the same computation.  The returned remainder is paired with a proof
that it is a suffix of the input lines (this is what the returned
index expresses in Python), which also bounds the recursion. -/
def parse_structure :
    (lines : List String) → Nat → List StructureItem →
    Except Err (List StructureItem × { r : List String // r <:+ lines })
  | [], _, acc => .ok (acc.reverse, ⟨[], List.nil_suffix⟩)
  | l :: rest, d, acc =>
    if (stripWs l.data).isEmpty then
      -- `if not line.strip(): i += 1; continue` (dead for the filtered
      -- input produced by `parse`, kept for fidelity)
      match parse_structure rest d acc with
      | .error e => .error e
      | .ok (items, ⟨r, hr⟩) =>
        .ok (items, ⟨r, hr.trans (List.suffix_cons l rest)⟩)
    else
      let n := get_depth l
      if n < d then
        -- returned to an ancestor level: stop parsing here
        .ok (acc.reverse, ⟨l :: rest, List.suffix_refl _⟩)
      else if n = d then
        -- same depth: a sibling
        match parse_line l with
        | .error e => .error e
        | .ok p =>
          match parse_structure rest d (mkItem p :: acc) with
          | .error e => .error e
          | .ok (items, ⟨r, hr⟩) =>
            .ok (items, ⟨r, hr.trans (List.suffix_cons l rest)⟩)
      else
        -- deeper line: child group of the previous sibling
        match acc with
        | [] => .error (ftErr ("Invalid tree structure at line: " ++ l))
        | prev :: accTail =>
          match parse_line l with
          | .error e => .error e
          | .ok p =>
            match parse_structure rest n [mkItem p] with
            | .error e => .error e
            | .ok (children, ⟨r, hr⟩) =>
              match parse_structure r d (setChildrenDir prev children :: accTail) with
              | .error e => .error e
              | .ok (items, ⟨r2, hr2⟩) =>
                .ok (items,
                  ⟨r2, (hr2.trans (hr.trans (List.suffix_cons l rest)))⟩)
termination_by lines _ _ => lines.length
decreasing_by
  all_goals simp_wf
  all_goals first
    | omega
    | exact Nat.lt_succ_of_le hr.length_le

/-- `TreeParser._extract_root_name`: `line.strip().rstrip('/')`,
failing when the result is empty. -/
def extract_root_name (l : String) : Except Err String :=
  let name := rstripSlash (stripWs l.data)
  if name.isEmpty then .error (ftErr "Invalid root directory name")
  else .ok ⟨name⟩

/-- The preprocessing in `TreeParser.parse`:
`[line.rstrip() for line in content.splitlines() if line.strip()]`. -/
def processLines (raw : List String) : List String :=
  (raw.filter (fun l => !(stripWs l.data).isEmpty)).map pyRstrip

/-- `TreeParser.parse`, taking the already line-split input. -/
def parseLines (raw : List String) : Except Err ProjectStructure :=
  let lines := processLines raw
  match lines with
  | [] => .error (ftErr "Empty input")
  | first :: body =>
    match extract_root_name first with
    | .error e => .error e
    | .ok rootName =>
      match body with
      | [] => .ok ⟨rootName, [], []⟩
      | _ :: _ =>
        match parse_structure body 0 [] with
        | .error e => .error e
        | .ok (items, _) => .ok ⟨rootName, items, []⟩

/-- Line splitting (Python `str.splitlines` restricted to `'\n'`
boundaries; the parse preprocessing drops blank lines, so the
treatment of a trailing newline agrees with Python). -/
def splitLines (s : String) : List String := s.splitOn "\n"

/-- `TreeParser.parse` on raw text. -/
def parse (content : String) : Except Err ProjectStructure :=
  parseLines (splitLines content)

/-- `parseStructure` is `parse_structure` with the suffix certificate
of the remainder erased; the step lemmas later in the file are the
recurrence the Python loop satisfies. -/
def parseStructure (lines : List String) (d : Nat) (acc : List StructureItem) :
    Except Err (List StructureItem × List String) :=
  match parse_structure lines d acc with
  | .error e => .error e
  | .ok (items, r) => .ok (items, r.val)

/-- The depth as the specification words it: the number of connector
glyphs among the characters scanned before the first character that
is not a tree-drawing/space character. -/
def specDepth (cs : List Char) : Nat :=
  ((cs.takeWhile isTreeOrSpace).filter isConnector).length

/-- Well-formedness of a body-line list as a drawable tree: no line
is nested more than one level deeper than the line before it (a child
is drawn exactly one level below its parent, so every genuine tree
drawing satisfies this; on a deeper jump the code would replace the
previous sibling's child list and silently drop the skipped group). -/
def chainPairs : List String → Bool
  | [] => true
  | [_] => true
  | a :: b :: t => decide (get_depth b ≤ get_depth a + 1) && chainPairs (b :: t)

/-! ### The parse-result invariant (claim C6) -/

mutual

/-- The invariant of claim C6 for one node: a `file` node has no
children (equivalently, a node with children is a `directory`), at
every nesting level. -/
def itemInv : StructureItem → Bool
  | .mk _ t ch _ _ =>
    (ch.isEmpty || decide (t = ItemType.directory)) && itemsInv ch

def itemsInv : List StructureItem → Bool
  | [] => true
  | x :: xs => itemInv x && itemsInv xs

end

/-- Membership of a node anywhere in a tree of items (any nesting
level). -/
inductive TreeMem : StructureItem → List StructureItem → Prop where
  | here {x : StructureItem} {xs : List StructureItem} :
      x ∈ xs → TreeMem x xs
  | child {x y : StructureItem} {xs : List StructureItem} :
      y ∈ xs → TreeMem x y.children → TreeMem x xs

/-! ### The generator (file_generator.py)

The filesystem is modelled as a pair of maps: the set of directories
present and the contents of the files present.  Paths are component
lists.  `mkdirP` models pathlib's
`Path.mkdir(parents=True, exist_ok=True)`; `FS.write` models
`open(path, "w"); f.write(content)`.  The progress callback is
modelled by counting its invocations; exceptions abort the traversal
but the filesystem mutations already performed are kept, so the
functions return the state reached together with an optional
exception. -/

def pathString (p : List String) : String := String.intercalate "/" p

structure FS where
  dirs : List String → Bool
  files : List String → Option String

def FS.isDir (fs : FS) (p : List String) : Bool := fs.dirs p

def FS.isFile (fs : FS) (p : List String) : Bool := (fs.files p).isSome

def FS.pathExists (fs : FS) (p : List String) : Bool := fs.isDir p || fs.isFile p

/-- Recursion worker for `FS.mkdirP`; the fuel equals the length of
the path at the top call and decreases together with it, so the
`0, _ :: _` arm is never reached. -/
def mkdirAux : Nat → FS → List String → Except Err FS
  | _, fs, [] => .ok fs
  | 0, fs, _ :: _ => .ok fs
  | fuel + 1, fs, a :: t =>
    if fs.isDir (a :: t) then .ok fs
    else if fs.isFile (a :: t) then
      .error (osErr ("FileExistsError: " ++ pathString (a :: t)))
    else
      match mkdirAux fuel fs (a :: t).dropLast with
      | .error e => .error e
      | .ok fs2 => .ok ⟨fun q => decide (q = a :: t) || fs2.dirs q, fs2.files⟩

/-- `Path.mkdir(parents=True, exist_ok=True)`: no-op when the target
is already a directory; fails when the target or an ancestor that
must be created exists as a file; otherwise creates the missing
ancestors and the target. -/
def FS.mkdirP (fs : FS) (p : List String) : Except Err FS :=
  mkdirAux p.length fs p

/-- `open(path, "w")` followed by writing `content`: fails (at the OS
level) when the path is a directory, otherwise creates or overwrites
the file. -/
def FS.write (fs : FS) (p : List String) (c : String) : Except Err FS :=
  if fs.isDir p then .error (osErr ("IsADirectoryError: " ++ pathString p))
  else .ok ⟨fs.dirs, fun q => if q = p then some c else fs.files q⟩

/-- `FileGenerator._create_directory`. -/
def create_directory (fs : FS) (p : List String) : Except Err FS :=
  if fs.pathExists p && !fs.isDir p then
    .error (ftErr ("Path exists but is not a directory: " ++ pathString p))
  else fs.mkdirP p

/-- `FileGenerator._create_file`: the overwrite guard, then
`path.parent.mkdir(parents=True, exist_ok=True)`, then the write. -/
def create_file (fs : FS) (p : List String) (c : String) (force : Bool) :
    Except Err FS :=
  if fs.pathExists p && !force then
    .error (ftErr ("File already exists: " ++ pathString p))
  else
    match fs.mkdirP p.dropLast with
    | .error e => .error e
    | .ok fs2 => fs2.write p c

/-- The template renderer collaborator (spec §6): a pure function
from template source and variables to rendered text or a template
error message. -/
def Render : Type := String → List (String × String) → Except String String

/-- `FileGenerator._render_content`. -/
def render_content (render : Render) (item : StructureItem)
    (vars : List (String × String)) : Except Err String :=
  match item.template with
  | some t =>
    match render t vars with
    | .error e =>
      .error (ftErr ("Template error in " ++ item.name ++ ": " ++ e))
    | .ok s => .ok s
  | none => .ok (item.content.getD "")

/-- `FileGenerator._generate_items`: for each item the progress
callback fires once, before the item is processed; directories are
created and recursed into (with the same callback), files are
rendered and written.  Returns the filesystem reached, the number of
callback invocations, and the exception that aborted the traversal,
if any. -/
def generate_items (render : Render) (force : Bool) :
    List StructureItem → List String → List (String × String) → FS → Nat →
    FS × Nat × Option Err
  | [], _, _, fs, cb => (fs, cb, none)
  | .mk nm ty ch tpl cnt :: rest, base, vars, fs, cb =>
    let p := base ++ [nm]
    match ty with
    | .directory =>
      match create_directory fs p with
      | .error e => (fs, cb + 1, some e)
      | .ok fs1 =>
        if ch.isEmpty then generate_items render force rest base vars fs1 (cb + 1)
        else
          match generate_items render force ch p vars fs1 (cb + 1) with
          | (fs2, cb2, some e) => (fs2, cb2, some e)
          | (fs2, cb2, none) => generate_items render force rest base vars fs2 cb2
    | .file =>
      match render_content render (.mk nm ty ch tpl cnt) vars with
      | .error e => (fs, cb + 1, some e)
      | .ok content =>
        match create_file fs p content force with
        | .error e => (fs, cb + 1, some e)
        | .ok fs1 => generate_items render force rest base vars fs1 (cb + 1)

/-- `FileGenerator.generate`: create the root directory (no callback
for it), then generate the items. -/
def generate (render : Render) (force : Bool) (s : ProjectStructure)
    (output : List String) (fs : FS) : FS × Nat × Option Err :=
  let root_path := output ++ [s.root]
  match create_directory fs root_path with
  | .error e => (fs, 0, some e)
  | .ok fs1 => generate_items render force s.items root_path s.vars fs1 0

/-- `count_items` from cli.py: the total node count over the entire
tree. -/
def count_items : List StructureItem → Nat
  | [] => 0
  | .mk _ _ ch _ _ :: rest => 1 + count_items ch + count_items rest

/-- A fuel-indexed twin of `generate_items` used to evaluate concrete
runs: it is structurally recursive in the fuel, so the kernel can
reduce it, and it agrees with `generate_items` whenever the fuel is
at least the node count (the fuel-exhausted arm is then never
reached). -/
def genAux (render : Render) (force : Bool) :
    Nat → List StructureItem → List String → List (String × String) → FS →
    Nat → FS × Nat × Option Err
  | _, [], _, _, fs, cb => (fs, cb, none)
  | 0, _ :: _, _, _, fs, cb => (fs, cb, none)
  | fuel + 1, .mk nm ty ch tpl cnt :: rest, base, vars, fs, cb =>
    match ty with
    | .directory =>
      match create_directory fs (base ++ [nm]) with
      | .error e => (fs, cb + 1, some e)
      | .ok fs1 =>
        if ch.isEmpty then genAux render force fuel rest base vars fs1 (cb + 1)
        else
          match genAux render force fuel ch (base ++ [nm]) vars fs1 (cb + 1) with
          | (fs2, cb2, some e) => (fs2, cb2, some e)
          | (fs2, cb2, none) => genAux render force fuel rest base vars fs2 cb2
    | .file =>
      match render_content render (.mk nm ty ch tpl cnt) vars with
      | .error e => (fs, cb + 1, some e)
      | .ok content =>
        match create_file fs (base ++ [nm]) content force with
        | .error e => (fs, cb + 1, some e)
        | .ok fs1 => genAux render force fuel rest base vars fs1 (cb + 1)

/-- The file-write operations a traversal performs, in order: the
target path and the content written there (the rendered content; the
placeholder for a failed render is never reached on a successful
run). -/
def writesOf (render : Render) (vars : List (String × String)) :
    List StructureItem → List String → List (List String × String)
  | [], _ => []
  | .mk nm ty ch tpl cnt :: rest, base =>
    (match ty with
     | .directory =>
       if ch.isEmpty then [] else writesOf render vars ch (base ++ [nm])
     | .file =>
       [(base ++ [nm],
         match render_content render (.mk nm ty ch tpl cnt) vars with
         | .ok c => c
         | .error _ => "")])
    ++ writesOf render vars rest base

/-- The value of the last write to `q` in the write list `W`. -/
def lastVal (W : List (List String × String)) (q : List String) : Option String :=
  match W with
  | [] => none
  | (p, c) :: t =>
    match lastVal t q with
    | some c2 => some c2
    | none => if p = q then some c else none

/-- The target paths of the file nodes the traversal reaches. -/
def filePaths : List StructureItem → List String → List (List String)
  | [], _ => []
  | .mk nm ty ch _ _ :: rest, base =>
    (match ty with
     | .directory => if ch.isEmpty then [] else filePaths ch (base ++ [nm])
     | .file => [base ++ [nm]])
    ++ filePaths rest base

/-- The empty filesystem. -/
def emptyFS : FS := ⟨fun _ => false, fun _ => none⟩

/-- A concrete renderer for witnesses. -/
def exRender : Render := fun t _ => .ok t

/-- The structure of the specification's end-to-end example:
root `my-app`, items `src` (directory with `main.py` and `utils`,
the latter holding `helpers.py`) and `tests` (directory). -/
def exampleStructure : ProjectStructure :=
  ⟨"my-app",
    [.mk "src" .directory
      [.mk "main.py" .file [] none none,
       .mk "utils" .directory [.mk "helpers.py" .file [] none none] none none]
      none none,
     .mk "tests" .directory [] none none], []⟩

/-- A one-file structure used to exercise the overwrite guard. -/
def exCollideStructure : ProjectStructure :=
  ⟨"proj", [.mk "a.txt" .file [] none none], []⟩

/-- A filesystem already holding a file at the generator's target
path for `exCollideStructure` under output `["out"]`. -/
def exCollideFS : FS :=
  ⟨fun _ => false,
   fun q => if q = ["out", "proj", "a.txt"] then some "old" else none⟩

/-! ### Recursion equations for `parse_structure` -/

theorem parseStructure_suffix {lines d acc items r}
    (h : parseStructure lines d acc = .ok (items, r)) : r <:+ lines := by
  rw [parseStructure] at h
  cases hps : parse_structure lines d acc with
  | error e => rw [hps] at h; cases h
  | ok v =>
    obtain ⟨items', r'⟩ := v
    rw [hps] at h
    cases h
    exact r'.2

theorem parseStructure_nil (d : Nat) (acc : List StructureItem) :
    parseStructure [] d acc = .ok (acc.reverse, []) := by
  rw [parseStructure, parse_structure]

theorem parseStructure_blank {l : String} (rest : List String) (d : Nat)
    (acc : List StructureItem) (h1 : (stripWs l.data).isEmpty = true) :
    parseStructure (l :: rest) d acc = parseStructure rest d acc := by
  rw [parseStructure, parseStructure, parse_structure]
  simp only [h1, if_true]
  cases hps : parse_structure rest d acc with
  | error e => rfl
  | ok v => obtain ⟨items, r, hr⟩ := v; rfl

theorem parseStructure_shallow {l : String} (rest : List String) {d : Nat}
    (acc : List StructureItem) (h1 : (stripWs l.data).isEmpty = false)
    (h2 : get_depth l < d) :
    parseStructure (l :: rest) d acc = .ok (acc.reverse, l :: rest) := by
  rw [parseStructure, parse_structure]
  simp only [h1, Bool.false_eq_true, if_false, h2, if_true]

theorem parseStructure_sib {l : String} (rest : List String) {d : Nat}
    (acc : List StructureItem) (h1 : (stripWs l.data).isEmpty = false)
    (h2 : get_depth l = d) :
    parseStructure (l :: rest) d acc =
      match parse_line l with
      | .error e => .error e
      | .ok p => parseStructure rest d (mkItem p :: acc) := by
  rw [parseStructure, parse_structure]
  simp only [h1, Bool.false_eq_true, if_false, h2, lt_irrefl, if_true]
  cases hp : parse_line l with
  | error e => rfl
  | ok p =>
    cases hps : parse_structure rest d (mkItem p :: acc) with
    | error e => simp [parseStructure, hps]
    | ok v => obtain ⟨items, r, hr⟩ := v; simp [parseStructure, hps]

theorem parseStructure_deep_orphan {l : String} (rest : List String) {d : Nat}
    (h1 : (stripWs l.data).isEmpty = false) (h2 : d < get_depth l) :
    parseStructure (l :: rest) d [] =
      .error (ftErr ("Invalid tree structure at line: " ++ l)) := by
  rw [parseStructure, parse_structure]
  have hlt : ¬(get_depth l < d) := by omega
  have hne : ¬(get_depth l = d) := by omega
  simp only [h1, Bool.false_eq_true, if_false, hlt, hne]

theorem parseStructure_deep {l : String} (rest : List String) {d : Nat}
    (prev : StructureItem) (accTail : List StructureItem)
    (h1 : (stripWs l.data).isEmpty = false) (h2 : d < get_depth l) :
    parseStructure (l :: rest) d (prev :: accTail) =
      match parse_line l with
      | .error e => .error e
      | .ok p =>
        match parseStructure rest (get_depth l) [mkItem p] with
        | .error e => .error e
        | .ok (children, r) =>
          parseStructure r d (setChildrenDir prev children :: accTail) := by
  rw [parseStructure, parse_structure]
  have hlt : ¬(get_depth l < d) := by omega
  have hne : ¬(get_depth l = d) := by omega
  simp only [h1, Bool.false_eq_true, if_false, hlt, hne]
  cases hp : parse_line l with
  | error e => rfl
  | ok p =>
    cases hps : parse_structure rest (get_depth l) [mkItem p] with
    | error e => simp [parseStructure, hps]
    | ok v =>
      obtain ⟨children, r, hr⟩ := v
      cases hps2 : parse_structure r d (setChildrenDir prev children :: accTail) with
      | error e => simp [parseStructure, hps, hps2]
      | ok v2 => obtain ⟨items, r2, hr2⟩ := v2; simp [parseStructure, hps, hps2]

/-! ### Whitespace stripping lemmas -/

theorem rstripWith_eq_nil_iff (p : Char → Bool) (cs : List Char) :
    rstripWith p cs = [] ↔ ∀ c ∈ cs, p c = true := by
  induction cs with
  | nil => simp [rstripWith]
  | cons c cs ih =>
    cases h : rstripWith p cs with
    | nil =>
      by_cases hp : p c
      · simp [rstripWith, h, hp]
        exact ih.mp h
      · simp [rstripWith, h, hp]
    | cons x xs =>
      have : ¬∀ c ∈ cs, p c = true := fun hall => by
        rw [ih.mpr hall] at h; cases h
      simp [rstripWith, h, this]

theorem rstripWith_idem (p : Char → Bool) (cs : List Char) :
    rstripWith p (rstripWith p cs) = rstripWith p cs := by
  induction cs with
  | nil => rfl
  | cons c cs ih =>
    cases h : rstripWith p cs with
    | nil =>
      by_cases hp : p c
      · simp [rstripWith, h, hp]
      · simp [rstripWith, h, hp]
    | cons x xs =>
      rw [h] at ih
      have hcc : rstripWith p (c :: cs) = c :: x :: xs := by rw [rstripWith, h]
      rw [hcc, rstripWith, ih]

theorem dropWhile_rstripWith_comm (p : Char → Bool) (cs : List Char) :
    (rstripWith p cs).dropWhile p = rstripWith p (cs.dropWhile p) := by
  induction cs with
  | nil => rfl
  | cons c cs ih =>
    by_cases hp : p c
    · cases h : rstripWith p cs with
      | nil =>
        have hall := (rstripWith_eq_nil_iff p cs).mp h
        have hdrop : cs.dropWhile p = [] := by
          rw [List.dropWhile_eq_nil_iff]
          intro x hx; exact hall x hx
        simp [rstripWith, h, hp, List.dropWhile_cons, hdrop]
      | cons x xs =>
        rw [h] at ih
        have hcc : rstripWith p (c :: cs) = c :: x :: xs := by rw [rstripWith, h]
        have hdc : List.dropWhile p (c :: cs) = List.dropWhile p cs := by
          simp [List.dropWhile_cons, hp]
        rw [hcc, hdc, List.dropWhile_cons]
        simp only [hp, if_true]
        exact ih
    · cases h : rstripWith p cs with
      | nil =>
        simp [rstripWith, h, hp, List.dropWhile_cons]
      | cons x xs =>
        simp [rstripWith, h, hp, List.dropWhile_cons]

theorem stripWs_rstripWs (cs : List Char) : stripWs (rstripWs cs) = stripWs cs := by
  rw [stripWs, stripWs, rstripWs, dropWhile_rstripWith_comm, rstripWith_idem]

theorem stripWs_pyRstrip (s : String) :
    stripWs (pyRstrip s).data = stripWs s.data := by
  show stripWs (rstripWs s.data) = stripWs s.data
  exact stripWs_rstripWs s.data

/-- Every line retained by the preprocessing is non-blank. -/
theorem processLines_noBlank {raw L : List String} (h : processLines raw = L) :
    ∀ l ∈ L, (stripWs l.data).isEmpty = false := by
  subst h
  intro l hl
  rw [processLines] at hl
  obtain ⟨l₀, hl₀, rfl⟩ := List.mem_map.mp hl
  have := List.mem_filter.mp hl₀
  rw [stripWs_pyRstrip]
  cases hb : (stripWs l₀.data).isEmpty with
  | false => rfl
  | true => rw [hb] at this; simp at this

/-! ### Depth computation (claim C2) -/

theorem depthAux_eq_specDepth (cs : List Char) : depthAux cs = specDepth cs := by
  induction cs with
  | nil => rfl
  | cons c cs ih =>
    by_cases hc : isConnector c
    · simp [depthAux, specDepth, isTreeOrSpace, hc, List.takeWhile_cons,
        List.filter_cons] at *
      omega
    · by_cases hs : isSkipChar c
      · simp [depthAux, specDepth, isTreeOrSpace, hc, hs, List.takeWhile_cons,
          List.filter_cons] at *
        exact ih
      · simp [depthAux, specDepth, isTreeOrSpace, hc, hs, List.takeWhile_cons]

/-- C2: for every line, the depth computed by the parser equals the
count of connector glyphs (`├`, `└`, `│`) occurring before the first
character that is not a connector, `─`, space or tab; consequently
two lines with the same connector count get the same depth regardless
of padding. -/
theorem claim_C2 :
    (∀ l : String, get_depth l = specDepth l.data) ∧
    (∀ l₁ l₂ : String, specDepth l₁.data = specDepth l₂.data →
      get_depth l₁ = get_depth l₂) := by
  constructor
  · intro l; exact depthAux_eq_specDepth l.data
  · intro l₁ l₂ h
    rw [get_depth, get_depth, depthAux_eq_specDepth, depthAux_eq_specDepth, h]

/-- Witness for C2 at concrete lines with different padding but the
same connector count. -/
theorem claim_C2_witness : get_depth "├──    a" = get_depth "│x" :=
  claim_C2.2 "├──    a" "│x" (by decide)

/-! ### Name/kind extraction (claim C3) -/

/-- C3: `_parse_line` strips every tree glyph, space and tab (then
whitespace at the ends) to obtain the content; a trailing `/` forces
a directory and the trailing slashes are removed from the stored
name; otherwise the line is a directory exactly when the content has
no `.` and a file exactly when it has one. -/
theorem claim_C3 (l : String) (h : lineContent l ≠ []) :
    ∃ name isdir, parse_line l = .ok (name, isdir) ∧
      name = String.mk (rstripSlash (lineContent l)) ∧
      (endsSlash (lineContent l) = true → isdir = true) ∧
      (endsSlash (lineContent l) = false →
        (isdir = true ↔ (lineContent l).contains '.' = false)) := by
  refine ⟨String.mk (rstripSlash (lineContent l)),
    endsSlash (lineContent l) || !(lineContent l).contains '.', ?_, rfl, ?_, ?_⟩
  · rw [parse_line]
    simp only [List.isEmpty_iff]
    rw [if_neg h]
  · intro he; simp [he]
  · intro he; simp [he]

/-- Witness for C3 at a concrete line. -/
theorem claim_C3_witness :
    ∃ name isdir, parse_line "├── a.txt" = .ok (name, isdir) ∧
      name = String.mk (rstripSlash (lineContent "├── a.txt")) ∧
      (endsSlash (lineContent "├── a.txt") = true → isdir = true) ∧
      (endsSlash (lineContent "├── a.txt") = false →
        (isdir = true ↔ (lineContent "├── a.txt").contains '.' = false)) :=
  claim_C3 "├── a.txt" (by decide)

/-! ### Multi-level depth handling (claim C1) -/

theorem parseLines_body {raw : List String} {first b : String} {bs : List String}
    {rn : String} (h : processLines raw = first :: b :: bs)
    (hroot : extract_root_name first = .ok rn) :
    parseLines raw =
      match parseStructure (b :: bs) 0 [] with
      | .error e => .error e
      | .ok (items, _) => .ok ⟨rn, items, []⟩ := by
  rw [parseLines]
  simp only [h, hroot]
  cases hps : parse_structure (b :: bs) 0 [] with
  | error e => simp [parseStructure, hps]
  | ok v => obtain ⟨items, r, hr⟩ := v; simp [parseStructure, hps]

/-- C1: with body lines at depths 0, 1, 2, 1, 0, the depth-2 node is
attached as the only child of the first depth-1 node, the second
depth-1 node is a sibling (not a child) of the first, and the final
depth-0 node is a top-level sibling; and in general a recursive call
returns control (consuming nothing) on any line shallower than its
own depth, so that the line is attached by the matching enclosing
group. -/
theorem claim_C1 :
    (∀ (raw : List String) (r a b c d e : String) (rn : String)
        (pa pb pc pd pe : String × Bool),
      processLines raw = [r, a, b, c, d, e] →
      extract_root_name r = .ok rn →
      get_depth a = 0 → get_depth b = 1 → get_depth c = 2 →
      get_depth d = 1 → get_depth e = 0 →
      parse_line a = .ok pa → parse_line b = .ok pb → parse_line c = .ok pc →
      parse_line d = .ok pd → parse_line e = .ok pe →
      parseLines raw = .ok ⟨rn,
        [setChildrenDir (mkItem pa)
          [setChildrenDir (mkItem pb) [mkItem pc], mkItem pd],
         mkItem pe], []⟩) ∧
    (∀ (l : String) (rest : List String) (d : Nat) (acc : List StructureItem),
      (stripWs l.data).isEmpty = false → get_depth l < d →
      parseStructure (l :: rest) d acc = .ok (acc.reverse, l :: rest)) := by
  constructor
  · intro raw r a b c d e rn pa pb pc pd pe hproc hroot ha hb hc hd he
      hpa hpb hpc hpd hpe
    have hnb := processLines_noBlank hproc
    have hnba : (stripWs a.data).isEmpty = false := hnb a (by simp)
    have hnbb : (stripWs b.data).isEmpty = false := hnb b (by simp)
    have hnbc : (stripWs c.data).isEmpty = false := hnb c (by simp)
    have hnbd : (stripWs d.data).isEmpty = false := hnb d (by simp)
    have hnbe : (stripWs e.data).isEmpty = false := hnb e (by simp)
    have s4 : parseStructure [e] 1
        [mkItem pd, setChildrenDir (mkItem pb) [mkItem pc]] =
        .ok ([setChildrenDir (mkItem pb) [mkItem pc], mkItem pd], [e]) :=
      parseStructure_shallow [] _ hnbe (by omega)
    have s3 : parseStructure [d, e] 1 [setChildrenDir (mkItem pb) [mkItem pc]] =
        .ok ([setChildrenDir (mkItem pb) [mkItem pc], mkItem pd], [e]) := by
      rw [parseStructure_sib [e] _ hnbd hd]
      simp only [hpd]
      exact s4
    have s1 : parseStructure [d, e] 2 [mkItem pc] = .ok ([mkItem pc], [d, e]) :=
      parseStructure_shallow [e] _ hnbd (by omega)
    have s2 : parseStructure [c, d, e] 1 [mkItem pb] =
        .ok ([setChildrenDir (mkItem pb) [mkItem pc], mkItem pd], [e]) := by
      rw [parseStructure_deep [d, e] (mkItem pb) [] hnbc (by omega)]
      simp only [hpc, hc, s1]
      exact s3
    have s7 : parseStructure [e] 0
        [setChildrenDir (mkItem pa)
          [setChildrenDir (mkItem pb) [mkItem pc], mkItem pd]] =
        .ok ([setChildrenDir (mkItem pa)
          [setChildrenDir (mkItem pb) [mkItem pc], mkItem pd], mkItem pe], []) := by
      rw [parseStructure_sib [] _ hnbe he]
      simp only [hpe]
      exact parseStructure_nil 0 _
    have s6 : parseStructure [b, c, d, e] 0 [mkItem pa] =
        .ok ([setChildrenDir (mkItem pa)
          [setChildrenDir (mkItem pb) [mkItem pc], mkItem pd], mkItem pe], []) := by
      rw [parseStructure_deep [c, d, e] (mkItem pa) [] hnbb (by omega)]
      simp only [hpb, hb, s2]
      exact s7
    have s5 : parseStructure [a, b, c, d, e] 0 [] =
        .ok ([setChildrenDir (mkItem pa)
          [setChildrenDir (mkItem pb) [mkItem pc], mkItem pd], mkItem pe], []) := by
      rw [parseStructure_sib [b, c, d, e] _ hnba ha]
      simp only [hpa]
      exact s6
    rw [parseLines_body hproc hroot, s5]
  · intro l rest d acc h1 h2
    exact parseStructure_shallow rest acc h1 h2

/-- Witness for C1 at a concrete input with body depths 0, 1, 2, 1, 0. -/
theorem claim_C1_witness :
    parseLines ["root", "a", "├── b", "│   ├── c", "├── d.txt", "e.txt"] =
      .ok ⟨"root",
        [.mk "a" .directory
          [.mk "b" .directory [.mk "c" .directory [] none none] none none,
           .mk "d.txt" .file [] none none] none none,
         .mk "e.txt" .file [] none none], []⟩ :=
  claim_C1.1 ["root", "a", "├── b", "│   ├── c", "├── d.txt", "e.txt"]
    "root" "a" "├── b" "│   ├── c" "├── d.txt" "e.txt" "root"
    ("a", true) ("b", true) ("c", true) ("d.txt", false) ("e.txt", false)
    rfl rfl rfl rfl rfl rfl rfl rfl rfl rfl rfl rfl

/-! ### `parse_line` and root-name equations -/

theorem parse_line_ok {l : String} (h : lineContent l ≠ []) :
    parse_line l = .ok (String.mk (rstripSlash (lineContent l)),
      endsSlash (lineContent l) || !(lineContent l).contains '.') := by
  rw [parse_line]
  simp only [List.isEmpty_iff]
  rw [if_neg h]

theorem parse_line_err {l : String} (h : lineContent l = []) :
    parse_line l = .error (ftErr ("Empty name in line: " ++ l)) := by
  rw [parse_line]
  simp [h]

theorem parse_line_ok_content {l : String} {p : String × Bool}
    (h : parse_line l = .ok p) : lineContent l ≠ [] := by
  intro hc
  rw [parse_line_err hc] at h
  cases h

theorem extract_root_name_ok {f : String}
    (h : rstripSlash (stripWs f.data) ≠ []) :
    extract_root_name f = .ok (String.mk (rstripSlash (stripWs f.data))) := by
  rw [extract_root_name]
  simp only [List.isEmpty_iff]
  rw [if_neg h]

theorem extract_root_name_err {f : String}
    (h : rstripSlash (stripWs f.data) = []) :
    extract_root_name f = .error (ftErr "Invalid root directory name") := by
  rw [extract_root_name]
  simp [h]

/-! ### Line provenance and kind promotion (claim C4) -/

theorem chainPairs_tail {a : String} {t : List String}
    (h : chainPairs (a :: t) = true) : chainPairs t = true := by
  cases t with
  | nil => rfl
  | cons b t2 =>
    simp only [chainPairs, Bool.and_eq_true] at h
    exact h.2

theorem chainPairs_head2 {a b : String} {t : List String}
    (h : chainPairs (a :: b :: t) = true) :
    get_depth b ≤ get_depth a + 1 := by
  simp only [chainPairs, Bool.and_eq_true, decide_eq_true_eq] at h
  exact h.1

theorem chainPairs_suffix :
    ∀ {lines r : List String}, r <:+ lines → chainPairs lines = true →
      chainPairs r = true := by
  intro lines
  induction lines with
  | nil =>
    intro r hr _
    rw [List.suffix_nil.mp hr]
    rfl
  | cons a t ih =>
    intro r hr h
    rcases List.suffix_cons_iff.mp hr with h1 | h1
    · rw [h1]; exact h
    · exact ih h1 (chainPairs_tail h)

theorem suffix_of_suffix_le {α : Type} {r1 r2 L : List α}
    (h1 : r1 <:+ L) (h2 : r2 <:+ L) (hle : r1.length ≤ r2.length) :
    r1 <:+ r2 := by
  obtain ⟨t1, ht1⟩ := h1
  obtain ⟨t2, ht2⟩ := h2
  have heq : t1 ++ r1 = t2 ++ r2 := by rw [ht1, ht2]
  rcases List.append_eq_append_iff.mp heq with ⟨a2, ha1, ha2⟩ | ⟨c2, hc1, hc2⟩
  · have hz : a2.length = 0 := by
      have := congrArg List.length ha2
      simp only [List.length_append] at this
      omega
    have ha0 : a2 = [] := List.length_eq_zero.mp hz
    subst ha0
    simp only [List.nil_append] at ha2
    rw [ha2]
  · exact ⟨c2, hc2.symm⟩

/-- The remainder returned by a run starts, if non-empty, at a line
strictly shallower than the run's depth (the only way the loop
stops early). -/
theorem parseStructure_rem :
    ∀ (n : Nat) (lines : List String) (d : Nat)
      (acc items : List StructureItem) (r : List String),
      lines.length ≤ n →
      parseStructure lines d acc = .ok (items, r) →
      ∀ l0 ls, r = l0 :: ls → get_depth l0 < d := by
  intro n
  induction n with
  | zero =>
    intro lines d acc items r hlen h l0 ls hr
    have hnil : lines = [] := List.length_eq_zero.mp (Nat.le_zero.mp hlen)
    subst hnil
    rw [parseStructure_nil] at h
    simp only [Except.ok.injEq, Prod.mk.injEq] at h
    rw [← h.2] at hr
    cases hr
  | succ m ih =>
    intro lines d acc items r hlen h l0 ls hr
    cases lines with
    | nil =>
      rw [parseStructure_nil] at h
      simp only [Except.ok.injEq, Prod.mk.injEq] at h
      rw [← h.2] at hr
      cases hr
    | cons l rest =>
      have hrest : rest.length ≤ m := by
        simp only [List.length_cons] at hlen
        omega
      by_cases hbl : (stripWs l.data).isEmpty = true
      · rw [parseStructure_blank rest d acc hbl] at h
        exact ih rest d acc items r hrest h l0 ls hr
      · have hbl' : (stripWs l.data).isEmpty = false := Bool.eq_false_iff.mpr hbl
        rcases Nat.lt_trichotomy (get_depth l) d with hlt | heq | hgt
        · rw [parseStructure_shallow rest acc hbl' hlt] at h
          simp only [Except.ok.injEq, Prod.mk.injEq] at h
          rw [← h.2] at hr
          injection hr with hA hB
          rw [← hA]
          exact hlt
        · rw [parseStructure_sib rest acc hbl' heq] at h
          cases hpl : parse_line l with
          | error e => simp [hpl] at h
          | ok p =>
            simp only [hpl] at h
            exact ih rest d (mkItem p :: acc) items r hrest h l0 ls hr
        · cases acc with
          | nil =>
            rw [parseStructure_deep_orphan rest hbl' hgt] at h
            cases h
          | cons prev accTail =>
            rw [parseStructure_deep rest prev accTail hbl' hgt] at h
            cases hpl : parse_line l with
            | error e => simp [hpl] at h
            | ok p =>
              cases hmid : parseStructure rest (get_depth l) [mkItem p] with
              | error e => simp [hpl, hmid] at h
              | ok v =>
                obtain ⟨children, rmid⟩ := v
                simp only [hpl, hmid] at h
                have hsub : rmid <:+ rest := parseStructure_suffix hmid
                exact ih rmid d (setChildrenDir prev children :: accTail) items r
                  (le_trans hsub.length_le hrest) h l0 ls hr

theorem setChildrenDir_children (x : StructureItem)
    (ch : List StructureItem) : (setChildrenDir x ch).children = ch := by
  cases x with
  | mk n t ch0 tp ct => rfl

theorem setChildrenDir_mkItem (p : String × Bool) (ch : List StructureItem) :
    setChildrenDir (mkItem p) ch = .mk p.1 .directory ch none none := rfl

theorem treeMem_lift {x prev : StructureItem} {ch items : List StructureItem}
    (hmem : setChildrenDir prev ch ∈ items) (hx : TreeMem x ch) :
    TreeMem x items :=
  .child hmem (by rw [setChildrenDir_children]; exact hx)

/-- At depth 0 a successful `parse_structure` run consumes every
line: the remainder index returned to `parse` is the end of input. -/
theorem parseStructure_total :
    ∀ (n : Nat) (lines : List String) (acc items : List StructureItem)
      (r : List String),
      lines.length ≤ n →
      parseStructure lines 0 acc = .ok (items, r) → r = [] := by
  intro n
  induction n with
  | zero =>
    intro lines acc items r hlen h
    have hnil : lines = [] := List.length_eq_zero.mp (Nat.le_zero.mp hlen)
    subst hnil
    rw [parseStructure_nil] at h
    simp only [Except.ok.injEq, Prod.mk.injEq] at h
    exact h.2.symm
  | succ m ih =>
    intro lines acc items r hlen h
    cases lines with
    | nil =>
      rw [parseStructure_nil] at h
      simp only [Except.ok.injEq, Prod.mk.injEq] at h
      exact h.2.symm
    | cons l rest =>
      have hrest : rest.length ≤ m := by
        simp only [List.length_cons] at hlen
        omega
      by_cases hbl : (stripWs l.data).isEmpty = true
      · rw [parseStructure_blank rest 0 acc hbl] at h
        exact ih rest acc items r hrest h
      · have hbl' : (stripWs l.data).isEmpty = false := Bool.eq_false_iff.mpr hbl
        rcases Nat.lt_trichotomy (get_depth l) 0 with hlt | heqd | hgt
        · omega
        · rw [parseStructure_sib rest acc hbl' heqd] at h
          cases hpl : parse_line l with
          | error e => simp [hpl] at h
          | ok p =>
            simp only [hpl] at h
            exact ih rest (mkItem p :: acc) items r hrest h
        · cases acc with
          | nil =>
            rw [parseStructure_deep_orphan rest hbl' hgt] at h
            cases h
          | cons prev accTail =>
            rw [parseStructure_deep rest prev accTail hbl' hgt] at h
            cases hpl : parse_line l with
            | error e => simp [hpl] at h
            | ok p =>
              cases hmid : parseStructure rest (get_depth l) [mkItem p] with
              | error e => simp [hpl, hmid] at h
              | ok v =>
                obtain ⟨children, rmid⟩ := v
                simp only [hpl, hmid] at h
                have hsub : rmid <:+ rest := parseStructure_suffix hmid
                exact ih rmid (setChildrenDir prev children :: accTail) items r
                  (le_trans hsub.length_le hrest) h


/-- The fate of every accumulator entry and of every consumed line in
a `parse_structure` run over non-blank, well-formed (`chainPairs`)
lines whose first line does not exceed depth `d + 1`: entries below
the accumulator head come back untouched; the head comes back
untouched when the first line is not deeper, and promoted with a
non-empty child group when it is; and every consumed line contributes
its `_parse_line` node to the returned forest — kept verbatim (kind
from the dot heuristic, no children) when the following line does not
nest beneath it, and reclassified as a directory carrying the
non-empty parsed child group when it does. -/
theorem parseStructure_line_fate :
    ∀ (n : Nat) (lines : List String) (d : Nat)
      (acc items : List StructureItem) (r : List String),
      lines.length ≤ n →
      (∀ l2 ∈ lines, (stripWs l2.data).isEmpty = false) →
      chainPairs lines = true →
      (∀ l0 ls, lines = l0 :: ls → get_depth l0 ≤ d + 1) →
      parseStructure lines d acc = .ok (items, r) →
      (∀ x ∈ acc, x ∈ items ∨ ∃ ch, ch ≠ [] ∧ setChildrenDir x ch ∈ items) ∧
      (∀ x h t, acc = h :: t → x ∈ t → x ∈ items) ∧
      (∀ h t, acc = h :: t →
        (∀ l0 ls, lines = l0 :: ls → get_depth l0 ≤ d) → h ∈ items) ∧
      (∀ h t l0 ls, acc = h :: t → lines = l0 :: ls → d < get_depth l0 →
        ∃ ch, ch ≠ [] ∧ setChildrenDir h ch ∈ items) ∧
      (∀ pre l rest2, lines = pre ++ l :: rest2 → r.length ≤ rest2.length →
        ∃ p, parse_line l = .ok p ∧
          ((∀ l2 ls2, rest2 = l2 :: ls2 → get_depth l2 ≤ get_depth l) →
            TreeMem (mkItem p) items) ∧
          (∀ l2 ls2, rest2 = l2 :: ls2 → get_depth l < get_depth l2 →
            ∃ ch, ch ≠ [] ∧
              TreeMem (.mk p.1 .directory ch none none) items)) := by
  intro n
  induction n with
  | zero =>
    intro lines d acc items r hlen hnb hcp hhd h
    have hnil : lines = [] := List.length_eq_zero.mp (Nat.le_zero.mp hlen)
    subst hnil
    rw [parseStructure_nil] at h
    simp only [Except.ok.injEq, Prod.mk.injEq] at h
    obtain ⟨h1, h2⟩ := h
    subst h1
    refine ⟨?_, ?_, ?_, ?_, ?_⟩
    · intro x hx; exact .inl (List.mem_reverse.mpr hx)
    · intro x hh t hacc hx
      subst hacc
      exact List.mem_reverse.mpr (List.mem_cons_of_mem _ hx)
    · intro hh t hacc _
      subst hacc
      exact List.mem_reverse.mpr (List.mem_cons_self _ _)
    · intro hh t l0 ls _ hl _
      cases hl
    · intro pre l rest2 hsplit _
      cases pre <;> simp at hsplit
  | succ m ih =>
    intro lines d acc items r hlen hnb hcp hhd h
    cases lines with
    | nil =>
      rw [parseStructure_nil] at h
      simp only [Except.ok.injEq, Prod.mk.injEq] at h
      obtain ⟨h1, h2⟩ := h
      subst h1
      refine ⟨?_, ?_, ?_, ?_, ?_⟩
      · intro x hx; exact .inl (List.mem_reverse.mpr hx)
      · intro x hh t hacc hx
        subst hacc
        exact List.mem_reverse.mpr (List.mem_cons_of_mem _ hx)
      · intro hh t hacc _
        subst hacc
        exact List.mem_reverse.mpr (List.mem_cons_self _ _)
      · intro hh t l0 ls _ hl _
        cases hl
      · intro pre l rest2 hsplit _
        cases pre <;> simp at hsplit
    | cons l rest =>
      have hrest : rest.length ≤ m := by
        simp only [List.length_cons] at hlen
        omega
      have hbl' : (stripWs l.data).isEmpty = false :=
        hnb l (List.mem_cons_self _ _)
      have hnbr : ∀ l2 ∈ rest, (stripWs l2.data).isEmpty = false :=
        fun l2 hl2 => hnb l2 (List.mem_cons_of_mem _ hl2)
      have hcpr : chainPairs rest = true := chainPairs_tail hcp
      rcases Nat.lt_trichotomy (get_depth l) d with hlt | heq | hgt
      · -- the first line is shallower: the run returns immediately
        rw [parseStructure_shallow rest acc hbl' hlt] at h
        simp only [Except.ok.injEq, Prod.mk.injEq] at h
        obtain ⟨h1, h2⟩ := h
        subst h1
        refine ⟨?_, ?_, ?_, ?_, ?_⟩
        · intro x hx; exact .inl (List.mem_reverse.mpr hx)
        · intro x hh t hacc hx
          subst hacc
          exact List.mem_reverse.mpr (List.mem_cons_of_mem _ hx)
        · intro hh t hacc _
          subst hacc
          exact List.mem_reverse.mpr (List.mem_cons_self _ _)
        · intro hh t l0 ls hacc hl hd0
          exfalso
          injection hl with he1 he2
          rw [← he1] at hd0
          omega
        · intro pre l' rest2 hsplit hcons
          exfalso
          have hL : (l :: rest).length = (pre ++ l' :: rest2).length := by
            rw [hsplit]
          rw [← h2] at hcons
          simp only [List.length_cons, List.length_append] at hL hcons
          omega
      · -- a sibling of the current group
        rw [parseStructure_sib rest acc hbl' heq] at h
        cases hpl : parse_line l with
        | error e => simp [hpl] at h
        | ok p =>
          simp only [hpl] at h
          have hhdr : ∀ l0 ls, rest = l0 :: ls → get_depth l0 ≤ d + 1 := by
            intro l0 ls he
            subst he
            have := chainPairs_head2 hcp
            omega
          obtain ⟨ih1, ih2, ih3, ih4, ih5⟩ :=
            ih rest d (mkItem p :: acc) items r hrest hnbr hcpr hhdr h
          refine ⟨?_, ?_, ?_, ?_, ?_⟩
          · intro x hx
            exact ih1 x (List.mem_cons_of_mem _ hx)
          · intro x hh t hacc hx
            subst hacc
            exact ih2 x (mkItem p) (hh :: t) rfl (List.mem_cons_of_mem _ hx)
          · intro hh t hacc _
            subst hacc
            exact ih2 hh (mkItem p) (hh :: t) rfl (List.mem_cons_self _ _)
          · intro hh t l0 ls hacc hl hd0
            exfalso
            injection hl with he1 he2
            rw [← he1] at hd0
            omega
          · intro pre l' rest2 hsplit hcons
            cases pre with
            | nil =>
              simp only [List.nil_append] at hsplit
              injection hsplit with he1 he2
              subst he1
              subst he2
              refine ⟨p, hpl, ?_, ?_⟩
              · intro hnd
                have hcond : ∀ l0 ls, rest = l0 :: ls → get_depth l0 ≤ d := by
                  intro l0 ls he
                  have := hnd l0 ls he
                  omega
                exact .here (ih3 (mkItem p) acc rfl hcond)
              · intro l2 ls2 he hdeep2
                obtain ⟨ch, hchne, hmem⟩ :=
                  ih4 (mkItem p) acc l2 ls2 rfl he (by omega)
                refine ⟨ch, hchne, ?_⟩
                rw [← setChildrenDir_mkItem]
                exact .here hmem
            | cons lp pre' =>
              injection hsplit with he1 he2
              exact ih5 pre' l' rest2 he2 hcons
      · -- a deeper line: the previous sibling is promoted
        cases acc with
        | nil =>
          rw [parseStructure_deep_orphan rest hbl' hgt] at h
          cases h
        | cons prev accTail =>
          rw [parseStructure_deep rest prev accTail hbl' hgt] at h
          cases hpl : parse_line l with
          | error e => simp [hpl] at h
          | ok p =>
            cases hmid : parseStructure rest (get_depth l) [mkItem p] with
            | error e => simp [hpl, hmid] at h
            | ok v =>
              obtain ⟨ch0, r2⟩ := v
              simp only [hpl, hmid] at h
              have hsub : r2 <:+ rest := parseStructure_suffix hmid
              have hld1 : get_depth l ≤ d + 1 := hhd l rest rfl
              have hhdc : ∀ l0 ls, rest = l0 :: ls →
                  get_depth l0 ≤ get_depth l + 1 := by
                intro l0 ls he
                subst he
                exact chainPairs_head2 hcp
              obtain ⟨c1, c2, c3, c4, c5⟩ :=
                ih rest (get_depth l) [mkItem p] ch0 r2 hrest hnbr hcpr hhdc hmid
              have hr2d : ∀ l0 ls, r2 = l0 :: ls → get_depth l0 ≤ d := by
                intro l0 ls he
                have := parseStructure_rem rest.length rest (get_depth l)
                  [mkItem p] ch0 r2 le_rfl hmid l0 ls he
                omega
              have hnbr2 : ∀ l2 ∈ r2, (stripWs l2.data).isEmpty = false :=
                fun l2 hl2 => hnbr l2 (hsub.subset hl2)
              have hcpr2 : chainPairs r2 = true := chainPairs_suffix hsub hcpr
              have hhd2 : ∀ l0 ls, r2 = l0 :: ls → get_depth l0 ≤ d + 1 := by
                intro l0 ls he
                have := hr2d l0 ls he
                omega
              obtain ⟨k1, k2, k3, k4, k5⟩ :=
                ih r2 d (setChildrenDir prev ch0 :: accTail) items r
                  (le_trans hsub.length_le hrest) hnbr2 hcpr2 hhd2 h
              have hch0ne : ch0 ≠ [] := by
                rcases c1 (mkItem p) (List.mem_singleton_self _) with
                  hm | ⟨chx, -, hm⟩
                · intro he; rw [he] at hm; simp at hm
                · intro he; rw [he] at hm; simp at hm
              have hmemp : setChildrenDir prev ch0 ∈ items :=
                k3 (setChildrenDir prev ch0) accTail rfl hr2d
              refine ⟨?_, ?_, ?_, ?_, ?_⟩
              · intro x hx
                rcases List.mem_cons.mp hx with hx1 | hx2
                · subst hx1
                  exact .inr ⟨ch0, hch0ne, hmemp⟩
                · exact .inl (k2 x (setChildrenDir prev ch0) accTail rfl hx2)
              · intro x hh t hacc hx
                injection hacc with ha1 ha2
                subst ha2
                exact k2 x (setChildrenDir prev ch0) accTail rfl hx
              · intro hh t hacc hcond
                exfalso
                have := hcond l rest rfl
                omega
              · intro hh t l0 ls hacc hl hd0
                injection hacc with ha1 ha2
                subst ha1
                exact ⟨ch0, hch0ne, hmemp⟩
              · intro pre l' rest2 hsplit hcons
                cases pre with
                | nil =>
                  simp only [List.nil_append] at hsplit
                  injection hsplit with he1 he2
                  subst he1
                  subst he2
                  refine ⟨p, hpl, ?_, ?_⟩
                  · intro hnd
                    have hmee : mkItem p ∈ ch0 :=
                      c3 (mkItem p) [] rfl (fun l0 ls he => hnd l0 ls he)
                    exact treeMem_lift hmemp (.here hmee)
                  · intro l2 ls2 he hdeep2
                    obtain ⟨chx, hchxne, hmx⟩ :=
                      c4 (mkItem p) [] l2 ls2 rfl he hdeep2
                    refine ⟨chx, hchxne, ?_⟩
                    have hmm : (.mk p.1 .directory chx none none :
                        StructureItem) ∈ ch0 := by
                      rw [← setChildrenDir_mkItem]
                      exact hmx
                    exact treeMem_lift hmemp (.here hmm)
                | cons lp pre' =>
                  injection hsplit with he1 he2
                  by_cases hAB : r2.length ≤ rest2.length
                  · obtain ⟨p', hp', f1, f2⟩ := c5 pre' l' rest2 he2 hAB
                    refine ⟨p', hp', ?_, ?_⟩
                    · intro hnd
                      exact treeMem_lift hmemp (f1 hnd)
                    · intro l2 ls2 he hdeep2
                      obtain ⟨chx, hchxne, hmx⟩ := f2 l2 ls2 he hdeep2
                      exact ⟨chx, hchxne, treeMem_lift hmemp hmx⟩
                  · push_neg at hAB
                    have hsfx1 : l' :: rest2 <:+ rest := ⟨pre', he2.symm⟩
                    have hsfx2 : l' :: rest2 <:+ r2 := by
                      refine suffix_of_suffix_le hsfx1 hsub ?_
                      simp only [List.length_cons]
                      omega
                    obtain ⟨preX, hpreX⟩ := hsfx2
                    exact k5 preX l' rest2 hpreX.symm hcons

/-- C4: for every body line of every well-formed input accepted by
the parser (`chainPairs`: a drawable tree never nests a line more
than one level deeper than the line before it), the returned tree
holds the node `_parse_line` builds for that line: when the following
line does not nest beneath it the node is kept verbatim — in
particular a name with a `.` and no trailing `/` stays a `file` with
no children — and when the following line does nest beneath it the
node is reclassified as a `directory` carrying the non-empty parsed
child group, whatever kind the dot heuristic chose. -/
theorem claim_C4 :
    ∀ (raw : List String) (s : ProjectStructure) (root l : String)
      (body pre rest2 : List String),
      parseLines raw = .ok s →
      processLines raw = root :: body →
      chainPairs body = true →
      body = pre ++ l :: rest2 →
      (∃ p, parse_line l = .ok p ∧
        ((∀ l2 ls2, rest2 = l2 :: ls2 → get_depth l2 ≤ get_depth l) →
          TreeMem (mkItem p) s.items) ∧
        (∀ l2 ls2, rest2 = l2 :: ls2 → get_depth l < get_depth l2 →
          ∃ ch, ch ≠ [] ∧
            TreeMem (.mk p.1 .directory ch none none) s.items)) ∧
      ((lineContent l).contains '.' = true →
        endsSlash (lineContent l) = false →
        (∀ l2 ls2, rest2 = l2 :: ls2 → get_depth l2 ≤ get_depth l) →
        TreeMem (.mk (String.mk (rstripSlash (lineContent l)))
          .file [] none none) s.items) := by
  intro raw s root l body pre rest2 hok hproc hcp hsplit
  cases body with
  | nil => cases pre <;> simp at hsplit
  | cons b bs =>
    rw [parseLines] at hok
    simp only [hproc] at hok
    cases hroot : extract_root_name root with
    | error e => simp [hroot] at hok
    | ok rn =>
      simp only [hroot] at hok
      cases hps0 : parse_structure (b :: bs) 0 [] with
      | error e => simp [hps0] at hok
      | ok v =>
        obtain ⟨items0, r0⟩ := v
        simp only [hps0, Except.ok.injEq] at hok
        subst hok
        have hw : parseStructure (b :: bs) 0 [] = .ok (items0, r0.val) := by
          unfold parseStructure
          rw [hps0]
        have htot : r0.val = [] :=
          parseStructure_total (b :: bs).length (b :: bs) [] items0 r0.val
            le_rfl hw
        rw [htot] at hw
        have hnb : ∀ l2 ∈ (b :: bs), (stripWs l2.data).isEmpty = false := by
          intro l2 hl2
          exact processLines_noBlank hproc l2 (List.mem_cons_of_mem _ hl2)
        have hb0 : get_depth b = 0 := by
          by_contra hne
          have hgt : 0 < get_depth b := Nat.pos_of_ne_zero hne
          rw [parseStructure_deep_orphan bs
            (hnb b (List.mem_cons_self _ _)) hgt] at hw
          cases hw
        have hhd : ∀ l0 ls, (b :: bs) = l0 :: ls → get_depth l0 ≤ 0 + 1 := by
          intro l0 ls he
          injection he with he1 he2
          rw [← he1, hb0]
          omega
        obtain ⟨-, -, -, -, main5⟩ :=
          parseStructure_line_fate (b :: bs).length (b :: bs) 0 [] items0 []
            le_rfl hnb hcp hhd hw
        obtain ⟨p, hp, f1, f2⟩ := main5 pre l rest2 hsplit (by simp)
        constructor
        · exact ⟨p, hp, f1, f2⟩
        · intro hdot hslash hnd
          have hne : lineContent l ≠ [] := by
            intro he
            rw [parse_line_err he] at hp
            cases hp
          rw [parse_line_ok hne] at hp
          simp only [Except.ok.injEq] at hp
          simp only [hdot, hslash, Bool.not_true, Bool.or_false] at hp
          have hmem := f1 hnd
          rw [← hp] at hmem
          exact hmem
/-- Witness for C4: in `root / a.txt` the dotted leaf stays a `file`
with no children; in `root / config.yaml / nested x` the dotted
sibling with a line nested beneath it comes back as a `directory`
despite the dot. -/
theorem claim_C4_witness :
    TreeMem (StructureItem.mk "a.txt" .file [] none none)
      [StructureItem.mk "a.txt" .file [] none none] ∧
    ∃ ch, ch ≠ [] ∧
      TreeMem (StructureItem.mk "config.yaml" .directory ch none none)
        [StructureItem.mk "config.yaml" .directory
          [StructureItem.mk "x" .directory [] none none] none none] := by
  constructor
  · have h1 : parseStructure ["a.txt"] 0 [] =
        .ok ([mkItem ("a.txt", false)], []) := by
      rw [parseStructure_sib [] [] (by decide) (by decide)]
      simp only [show parse_line "a.txt" = .ok ("a.txt", false) from rfl]
      exact parseStructure_nil 0 _
    have hparse : parseLines ["root", "a.txt"] =
        .ok ⟨"root", [.mk "a.txt" .file [] none none], []⟩ := by
      rw [parseLines_body
          (show processLines ["root", "a.txt"] = ["root", "a.txt"] from rfl)
          (show extract_root_name "root" = .ok "root" from rfl), h1]
      rfl
    exact (claim_C4 ["root", "a.txt"]
        ⟨"root", [.mk "a.txt" .file [] none none], []⟩ "root" "a.txt"
        ["a.txt"] [] [] hparse rfl rfl rfl).2
      (by decide) (by decide) (fun l2 ls2 he => nomatch he)
  · have h2 : parseStructure ["├── x"] 0 [mkItem ("config.yaml", false)] =
        .ok ([setChildrenDir (mkItem ("config.yaml", false))
          [mkItem ("x", true)]], []) := by
      rw [parseStructure_deep [] (mkItem ("config.yaml", false)) []
        (by decide) (by decide)]
      simp only [show parse_line "├── x" = .ok ("x", true) from rfl]
      simp only [parseStructure_nil, List.reverse_cons, List.reverse_nil,
        List.nil_append]
    have h3 : parseStructure ["config.yaml", "├── x"] 0 [] =
        .ok ([setChildrenDir (mkItem ("config.yaml", false))
          [mkItem ("x", true)]], []) := by
      rw [parseStructure_sib ["├── x"] [] (by decide) (by decide)]
      simp only [show parse_line "config.yaml" = .ok ("config.yaml", false)
        from rfl]
      exact h2
    have hparse : parseLines ["root", "config.yaml", "├── x"] =
        .ok ⟨"root",
          [.mk "config.yaml" .directory
            [.mk "x" .directory [] none none] none none], []⟩ := by
      rw [parseLines_body
          (show processLines ["root", "config.yaml", "├── x"] =
            ["root", "config.yaml", "├── x"] from rfl)
          (show extract_root_name "root" = .ok "root" from rfl), h3]
      rfl
    obtain ⟨p, hp, -, f2⟩ := (claim_C4 ["root", "config.yaml", "├── x"]
        ⟨"root",
          [.mk "config.yaml" .directory
            [.mk "x" .directory [] none none] none none], []⟩
        "root" "config.yaml" ["config.yaml", "├── x"] [] ["├── x"]
        hparse rfl (by decide) rfl).1
    have hpv : p = ("config.yaml", false) := by
      rw [show parse_line "config.yaml" = .ok ("config.yaml", false)
        from rfl] at hp
      injection hp with hinj
      exact hinj.symm
    obtain ⟨ch, hchne, hmem⟩ := f2 "├── x" [] rfl (by decide)
    refine ⟨ch, hchne, ?_⟩
    rw [hpv] at hmem
    exact hmem

/-! ### The File/children invariant (claim C6) -/

theorem itemsInv_iff (xs : List StructureItem) :
    itemsInv xs = true ↔ ∀ x ∈ xs, itemInv x = true := by
  induction xs with
  | nil => simp [itemsInv]
  | cons x xs ih => simp [itemsInv, Bool.and_eq_true, ih]

theorem mkItem_inv (p : String × Bool) : itemInv (mkItem p) = true := by
  simp [mkItem, itemInv, itemsInv]

theorem setChildrenDir_inv (prev : StructureItem) (ch : List StructureItem)
    (h : ∀ x ∈ ch, itemInv x = true) :
    itemInv (setChildrenDir prev ch) = true := by
  cases prev with
  | mk n t ch0 tp ct =>
    simp [setChildrenDir, itemInv, itemsInv_iff]
    intro x hx
    exact h x hx

/-- Every item produced by a successful `parse_structure` run
satisfies the invariant, provided the accumulated ones do. -/
theorem parseStructure_inv :
    ∀ (n : Nat) (lines : List String) (d : Nat)
      (acc items : List StructureItem) (r : List String),
      lines.length ≤ n →
      parseStructure lines d acc = .ok (items, r) →
      (∀ x ∈ acc, itemInv x = true) →
      ∀ x ∈ items, itemInv x = true := by
  intro n
  induction n with
  | zero =>
    intro lines d acc items r hlen h hacc
    have hnil : lines = [] := List.length_eq_zero.mp (Nat.le_zero.mp hlen)
    subst hnil
    rw [parseStructure_nil] at h
    simp only [Except.ok.injEq, Prod.mk.injEq] at h
    obtain ⟨h1, -⟩ := h
    subst h1
    intro x hx
    exact hacc x (List.mem_reverse.mp hx)
  | succ m ih =>
    intro lines d acc items r hlen h hacc
    cases lines with
    | nil =>
      rw [parseStructure_nil] at h
      simp only [Except.ok.injEq, Prod.mk.injEq] at h
      obtain ⟨h1, -⟩ := h
      subst h1
      intro x hx
      exact hacc x (List.mem_reverse.mp hx)
    | cons l rest =>
      have hrest : rest.length ≤ m := by
        simp only [List.length_cons] at hlen
        omega
      by_cases hbl : (stripWs l.data).isEmpty = true
      · rw [parseStructure_blank rest d acc hbl] at h
        exact ih rest d acc items r hrest h hacc
      · have hbl' : (stripWs l.data).isEmpty = false := Bool.eq_false_iff.mpr hbl
        rcases Nat.lt_trichotomy (get_depth l) d with hlt | heq | hgt
        · rw [parseStructure_shallow rest acc hbl' hlt] at h
          simp only [Except.ok.injEq, Prod.mk.injEq] at h
          obtain ⟨h1, -⟩ := h
          subst h1
          intro x hx
          exact hacc x (List.mem_reverse.mp hx)
        · rw [parseStructure_sib rest acc hbl' heq] at h
          cases hpl : parse_line l with
          | error e => simp [hpl] at h
          | ok p =>
            simp only [hpl] at h
            refine ih rest d (mkItem p :: acc) items r hrest h ?_
            intro x hx
            rcases List.mem_cons.mp hx with hx1 | hx2
            · subst hx1; exact mkItem_inv p
            · exact hacc x hx2
        · cases acc with
          | nil =>
            rw [parseStructure_deep_orphan rest hbl' hgt] at h
            cases h
          | cons prev accTail =>
            rw [parseStructure_deep rest prev accTail hbl' hgt] at h
            cases hpl : parse_line l with
            | error e => simp [hpl] at h
            | ok p =>
              cases hmid : parseStructure rest (get_depth l) [mkItem p] with
              | error e => simp [hpl, hmid] at h
              | ok v =>
                obtain ⟨children, rmid⟩ := v
                simp only [hpl, hmid] at h
                have hsub : rmid <:+ rest := parseStructure_suffix hmid
                have hch : ∀ x ∈ children, itemInv x = true := by
                  refine ih rest (get_depth l) [mkItem p] children rmid hrest hmid ?_
                  intro x hx
                  rcases List.mem_singleton.mp hx with hx1
                  subst hx1; exact mkItem_inv p
                refine ih rmid d (setChildrenDir prev children :: accTail)
                  items r (le_trans hsub.length_le hrest) h ?_
                intro x hx
                rcases List.mem_cons.mp hx with hx1 | hx2
                · subst hx1; exact setChildrenDir_inv prev children hch
                · exact hacc x (List.mem_cons_of_mem prev hx2)

theorem itemInv_spec {x : StructureItem} (h : itemInv x = true) :
    (x.item_type = .file → x.children = []) ∧
    (x.children ≠ [] → x.item_type = .directory) ∧
    (∀ c ∈ x.children, itemInv c = true) := by
  cases x with
  | mk n t ch tp ct =>
    simp only [itemInv, Bool.and_eq_true, Bool.or_eq_true, List.isEmpty_iff,
      decide_eq_true_eq] at h
    obtain ⟨h1, h2⟩ := h
    refine ⟨?_, ?_, ?_⟩
    · intro hf
      simp only [StructureItem.item_type] at hf
      simp only [StructureItem.children]
      rcases h1 with h1 | h1
      · exact h1
      · rw [hf] at h1; cases h1
    · intro hne
      simp only [StructureItem.children] at hne
      simp only [StructureItem.item_type]
      rcases h1 with h1 | h1
      · exact absurd h1 hne
      · exact h1
    · intro c hc
      simp only [StructureItem.children] at hc
      exact (itemsInv_iff ch).mp h2 c hc

theorem treeMem_inv {items : List StructureItem} {x : StructureItem}
    (htop : ∀ y ∈ items, itemInv y = true) (hm : TreeMem x items) :
    itemInv x = true := by
  induction hm with
  | here hmem => exact htop _ hmem
  | child hmem hsub ihsub =>
    exact ihsub ((itemInv_spec (htop _ hmem)).2.2)

/-- C6: in every `ProjectStructure` returned by `parse`, every node
at every nesting level with kind `file` has no children, and every
node with a non-empty children list has kind `directory`. -/
theorem claim_C6 (raw : List String) (s : ProjectStructure)
    (h : parseLines raw = .ok s) :
    ∀ x : StructureItem, TreeMem x s.items →
      (x.item_type = .file → x.children = []) ∧
      (x.children ≠ [] → x.item_type = .directory) := by
  have htop : ∀ y ∈ s.items, itemInv y = true := by
    rw [parseLines] at h
    cases hpl : processLines raw with
    | nil => simp [hpl] at h
    | cons first body =>
      simp only [hpl] at h
      cases hroot : extract_root_name first with
      | error e => simp [hroot] at h
      | ok rn =>
        simp only [hroot] at h
        cases body with
        | nil =>
          simp only [Except.ok.injEq] at h
          subst h
          intro y hy
          cases hy
        | cons b bs =>
          cases hps : parse_structure (b :: bs) 0 [] with
          | error e => simp [hps] at h
          | ok v =>
            obtain ⟨items0, r0⟩ := v
            simp only [hps, Except.ok.injEq] at h
            subst h
            have hw : parseStructure (b :: bs) 0 [] = .ok (items0, r0.val) := by
              unfold parseStructure
              rw [hps]
            intro y hy
            exact parseStructure_inv (b :: bs).length (b :: bs) 0 [] items0
              r0.val le_rfl hw (by intro z hz; cases hz) y hy
  intro x hx
  have hinv := treeMem_inv htop hx
  exact ⟨(itemInv_spec hinv).1, (itemInv_spec hinv).2.1⟩

/-- Witness for C6 at a concrete parse. -/
theorem claim_C6_witness :
    ((StructureItem.mk "a.txt" .file [] none none).item_type = .file →
      (StructureItem.mk "a.txt" .file [] none none).children = []) ∧
    ((StructureItem.mk "a.txt" .file [] none none).children ≠ [] →
      (StructureItem.mk "a.txt" .file [] none none).item_type = .directory) := by
  have h1 : parseStructure ["a.txt"] 0 [] =
      .ok ([mkItem ("a.txt", false)], []) := by
    rw [parseStructure_sib [] [] (by decide) (by decide)]
    simp only [show parse_line "a.txt" = .ok ("a.txt", false) from rfl]
    exact parseStructure_nil 0 _
  have hparse : parseLines ["root", "a.txt"] =
      .ok ⟨"root", [.mk "a.txt" .file [] none none], []⟩ := by
    rw [parseLines_body
        (show processLines ["root", "a.txt"] = ["root", "a.txt"] from rfl)
        (show extract_root_name "root" = .ok "root" from rfl), h1]
    rfl
  exact claim_C6 ["root", "a.txt"]
    ⟨"root", [.mk "a.txt" .file [] none none], []⟩ hparse
    (.mk "a.txt" .file [] none none) (.here (by simp))

/-! ### Error taxonomy of `parse` (claim C5) -/

/-- On non-blank lines, and started either with a non-empty
accumulator or at a line no deeper than the group depth,
`parse_structure` either succeeds or stops at a line whose cleaned
content is empty, raising "Empty name in line". -/
theorem parseStructure_run :
    ∀ (n : Nat) (lines : List String) (d : Nat) (acc : List StructureItem),
      lines.length ≤ n →
      (∀ l ∈ lines, (stripWs l.data).isEmpty = false) →
      (acc = [] → ∀ l rest', lines = l :: rest' → get_depth l ≤ d) →
      (∃ items r, parseStructure lines d acc = .ok (items, r)) ∨
      (∃ l, l ∈ lines ∧ lineContent l = [] ∧
        parseStructure lines d acc =
          .error (ftErr ("Empty name in line: " ++ l))) := by
  intro n
  induction n with
  | zero =>
    intro lines d acc hlen hnb hstart
    have hnil : lines = [] := List.length_eq_zero.mp (Nat.le_zero.mp hlen)
    subst hnil
    exact .inl ⟨acc.reverse, [], parseStructure_nil d acc⟩
  | succ m ih =>
    intro lines d acc hlen hnb hstart
    cases lines with
    | nil => exact .inl ⟨acc.reverse, [], parseStructure_nil d acc⟩
    | cons l rest =>
      have hrest : rest.length ≤ m := by
        simp only [List.length_cons] at hlen
        omega
      have hbl' : (stripWs l.data).isEmpty = false := hnb l (by simp)
      have hnbr : ∀ x ∈ rest, (stripWs x.data).isEmpty = false :=
        fun x hx => hnb x (List.mem_cons_of_mem l hx)
      rcases Nat.lt_trichotomy (get_depth l) d with hlt | heqd | hgt
      · exact .inl ⟨acc.reverse, l :: rest,
          parseStructure_shallow rest acc hbl' hlt⟩
      · by_cases hc : lineContent l = []
        · refine .inr ⟨l, by simp, hc, ?_⟩
          rw [parseStructure_sib rest acc hbl' heqd]
          simp only [parse_line_err hc]
        · have heq2 : parseStructure (l :: rest) d acc =
              parseStructure rest d
                (mkItem (String.mk (rstripSlash (lineContent l)),
                  endsSlash (lineContent l) || !(lineContent l).contains '.')
                  :: acc) := by
            rw [parseStructure_sib rest acc hbl' heqd]
            simp only [parse_line_ok hc]
          rcases ih rest d
              (mkItem (String.mk (rstripSlash (lineContent l)),
                endsSlash (lineContent l) || !(lineContent l).contains '.')
                :: acc) hrest hnbr (by intro hx; cases hx) with
            ⟨items, r, hok⟩ | ⟨l', hmem, hcont, herr⟩
          · exact .inl ⟨items, r, by rw [heq2]; exact hok⟩
          · exact .inr ⟨l', List.mem_cons_of_mem l hmem, hcont,
              by rw [heq2]; exact herr⟩
      · cases acc with
        | nil => exact absurd (hstart rfl l rest rfl) (by omega)
        | cons prev accTail =>
          by_cases hc : lineContent l = []
          · refine .inr ⟨l, by simp, hc, ?_⟩
            rw [parseStructure_deep rest prev accTail hbl' hgt]
            simp only [parse_line_err hc]
          · rcases ih rest (get_depth l)
                [mkItem (String.mk (rstripSlash (lineContent l)),
                  endsSlash (lineContent l) || !(lineContent l).contains '.')]
                hrest hnbr (by intro hx; cases hx) with
              ⟨children, rmid, hok⟩ | ⟨l', hmem, hcont, herr⟩
            · have hsub : rmid <:+ rest := parseStructure_suffix hok
              have heq2 : parseStructure (l :: rest) d (prev :: accTail) =
                  parseStructure rmid d
                    (setChildrenDir prev children :: accTail) := by
                rw [parseStructure_deep rest prev accTail hbl' hgt]
                simp only [parse_line_ok hc, hok]
              rcases ih rmid d (setChildrenDir prev children :: accTail)
                  (le_trans hsub.length_le hrest)
                  (fun x hx => hnbr x (hsub.subset hx))
                  (by intro hx; cases hx) with
                ⟨items, r, hok2⟩ | ⟨l', hmem', hcont', herr'⟩
              · exact .inl ⟨items, r, by rw [heq2]; exact hok2⟩
              · exact .inr ⟨l', List.mem_cons_of_mem l (hsub.subset hmem'),
                  hcont', by rw [heq2]; exact herr'⟩
            · refine .inr ⟨l', List.mem_cons_of_mem l hmem, hcont, ?_⟩
              rw [parseStructure_deep rest prev accTail hbl' hgt]
              simp only [parse_line_ok hc, herr]

/-- A line whose cleaned content is empty is never consumed by a
successful run: it can only sit in the returned remainder. -/
theorem parseStructure_consumed :
    ∀ (n : Nat) (lines : List String) (d : Nat)
      (acc items : List StructureItem) (r : List String),
      lines.length ≤ n →
      (∀ l ∈ lines, (stripWs l.data).isEmpty = false) →
      parseStructure lines d acc = .ok (items, r) →
      ∀ l ∈ lines, lineContent l = [] → l ∈ r := by
  intro n
  induction n with
  | zero =>
    intro lines d acc items r hlen hnb h l hl hcont
    have hnil : lines = [] := List.length_eq_zero.mp (Nat.le_zero.mp hlen)
    subst hnil
    cases hl
  | succ m ih =>
    intro lines d acc items r hlen hnb h l hl hcont
    cases lines with
    | nil => cases hl
    | cons l0 rest =>
      have hrest : rest.length ≤ m := by
        simp only [List.length_cons] at hlen
        omega
      have hbl' : (stripWs l0.data).isEmpty = false := hnb l0 (by simp)
      have hnbr : ∀ x ∈ rest, (stripWs x.data).isEmpty = false :=
        fun x hx => hnb x (List.mem_cons_of_mem l0 hx)
      rcases Nat.lt_trichotomy (get_depth l0) d with hlt | heqd | hgt
      · rw [parseStructure_shallow rest acc hbl' hlt] at h
        simp only [Except.ok.injEq, Prod.mk.injEq] at h
        rw [← h.2]
        exact hl
      · rw [parseStructure_sib rest acc hbl' heqd] at h
        cases hpl : parse_line l0 with
        | error e => simp [hpl] at h
        | ok p =>
          simp only [hpl] at h
          rcases List.mem_cons.mp hl with hl1 | hl2
          · subst hl1
            exact absurd hcont (parse_line_ok_content hpl)
          · exact ih rest d (mkItem p :: acc) items r hrest hnbr h l hl2 hcont
      · cases acc with
        | nil =>
          rw [parseStructure_deep_orphan rest hbl' hgt] at h
          cases h
        | cons prev accTail =>
          rw [parseStructure_deep rest prev accTail hbl' hgt] at h
          cases hpl : parse_line l0 with
          | error e => simp [hpl] at h
          | ok p =>
            cases hmid : parseStructure rest (get_depth l0) [mkItem p] with
            | error e => simp [hpl, hmid] at h
            | ok v =>
              obtain ⟨children, rmid⟩ := v
              simp only [hpl, hmid] at h
              have hsub : rmid <:+ rest := parseStructure_suffix hmid
              rcases List.mem_cons.mp hl with hl1 | hl2
              · subst hl1
                exact absurd hcont (parse_line_ok_content hpl)
              · have hmem2 : l ∈ rmid :=
                  ih rest (get_depth l0) [mkItem p] children rmid hrest hnbr
                    hmid l hl2 hcont
                exact ih rmid d (setChildrenDir prev children :: accTail)
                  items r (le_trans hsub.length_le hrest)
                  (fun x hx => hnbr x (hsub.subset hx)) h l hmem2 hcont

/-- C5 (amended: the exception raised is the base `ForgeTreeError`,
not the `ParseError` subclass): `parse` fails exactly on empty input
("Empty input"), an empty stripped root name ("Invalid root directory
name"), a first body line deeper than depth 0 ("Invalid tree
structure at line: …"), or a body line with empty cleaned content
("Empty name in line: …"); every other input parses successfully. -/
theorem claim_C5 (raw : List String) :
    (processLines raw = [] → parseLines raw = .error (ftErr "Empty input")) ∧
    (∀ first body, processLines raw = first :: body →
      (rstripSlash (stripWs first.data) = [] →
        parseLines raw = .error (ftErr "Invalid root directory name")) ∧
      (rstripSlash (stripWs first.data) ≠ [] →
        (body = [] → parseLines raw =
          .ok ⟨String.mk (rstripSlash (stripWs first.data)), [], []⟩) ∧
        (∀ b bs, body = b :: bs →
          (0 < get_depth b → parseLines raw =
            .error (ftErr ("Invalid tree structure at line: " ++ b))) ∧
          (get_depth b = 0 →
            ((∀ l ∈ body, lineContent l ≠ []) →
              ∃ s, parseLines raw = .ok s) ∧
            ((∃ l ∈ body, lineContent l = []) →
              ∃ l ∈ body, lineContent l = [] ∧
                parseLines raw =
                  .error (ftErr ("Empty name in line: " ++ l))))))) := by
  refine ⟨?_, ?_⟩
  · intro h
    simp [parseLines, h]
  · intro first body hproc
    refine ⟨?_, ?_⟩
    · intro hroot
      simp [parseLines, hproc, extract_root_name_err hroot]
    · intro hroot
      have hrootok := extract_root_name_ok hroot
      refine ⟨?_, ?_⟩
      · intro hbody
        subst hbody
        simp [parseLines, hproc, hrootok]
      · intro b bs hbody
        subst hbody
        have hnb := processLines_noBlank hproc
        have hnbb : ∀ x ∈ b :: bs, (stripWs x.data).isEmpty = false :=
          fun x hx => hnb x (List.mem_cons_of_mem first hx)
        refine ⟨?_, ?_⟩
        · intro hdeep
          have horph : parseStructure (b :: bs) 0 [] =
              .error (ftErr ("Invalid tree structure at line: " ++ b)) :=
            parseStructure_deep_orphan bs (hnbb b (by simp)) hdeep
          rw [parseLines_body hproc hrootok, horph]
        · intro hzero
          have hstart : ([] : List StructureItem) = [] →
              ∀ l rest', b :: bs = l :: rest' → get_depth l ≤ 0 := by
            intro _ l rest' hcons
            cases hcons
            omega
          refine ⟨?_, ?_⟩
          · intro hall
            rcases parseStructure_run (b :: bs).length (b :: bs) 0 [] le_rfl
                hnbb hstart with ⟨items, r, hok⟩ | ⟨l', hmem, hcont, -⟩
            · exact ⟨⟨String.mk (rstripSlash (stripWs first.data)), items, []⟩,
                by rw [parseLines_body hproc hrootok, hok]⟩
            · exact absurd hcont (hall l' hmem)
          · intro hsome
            rcases parseStructure_run (b :: bs).length (b :: bs) 0 [] le_rfl
                hnbb hstart with ⟨items, r, hok⟩ | ⟨l', hmem, hcont, herr⟩
            · obtain ⟨l', hmem, hcont⟩ := hsome
              have hr : r = [] :=
                parseStructure_total (b :: bs).length (b :: bs) [] items r
                  le_rfl hok
              have : l' ∈ r :=
                parseStructure_consumed (b :: bs).length (b :: bs) 0 [] items
                  r le_rfl hnbb hok l' hmem hcont
              rw [hr] at this
              cases this
            · exact ⟨l', hmem, hcont,
                by rw [parseLines_body hproc hrootok, herr]⟩

/-- C5 counterexample to the claim as stated: the exception raised on
empty input is the base `ForgeTreeError`, whose class tag is not
`ParseError` (tree_parser.py raises `ForgeTreeError`, never the
`ParseError` subclass). -/
theorem claim_C5_cex :
    parseLines [] = .error (ftErr "Empty input") ∧
    (ftErr "Empty input").cls ≠ ErrClass.parseError := ⟨rfl, by decide⟩

/-- Witness for C5: a first body line deeper than depth 0 is
rejected with "Invalid tree structure". -/
theorem claim_C5_witness :
    parseLines ["root", "├── x"] =
      .error (ftErr "Invalid tree structure at line: ├── x") :=
  (((((claim_C5 ["root", "├── x"]).2 "root" ["├── x"] rfl).2
    (by decide)).2 "├── x" [] rfl).1 (by decide))

/-! ### Root-only inputs (claim C10) -/

/-- C10 counterexample: an input whose only non-blank line is `"/"`
has no body lines, yet `parse` fails ("Invalid root directory name")
instead of succeeding, so the claim as stated is false. -/
theorem claim_C10_cex :
    parseLines ["/"] = .error (ftErr "Invalid root directory name") := rfl

/-- C10 (amended): for every input whose only non-blank line is the
root line, provided the root name is nonempty after stripping
whitespace and trailing slashes, `parse` succeeds with an empty items
list and an empty variables mapping. -/
theorem claim_C10 (raw : List String) (r : String)
    (h : processLines raw = [r])
    (hr : rstripSlash (stripWs r.data) ≠ []) :
    parseLines raw = .ok ⟨String.mk (rstripSlash (stripWs r.data)), [], []⟩ := by
  have h3 : extract_root_name r = .ok (String.mk (rstripSlash (stripWs r.data))) := by
    rw [extract_root_name]
    simp only [List.isEmpty_iff]
    rw [if_neg hr]
  simp only [parseLines, h, h3]

/-- Witness for C10 at a concrete one-line input. -/
theorem claim_C10_witness :
    parseLines ["proj/"] = .ok ⟨"proj", [], []⟩ :=
  claim_C10 ["proj/"] "proj/" rfl (by decide)

/-! ### Filesystem operation lemmas -/

theorem mkdirAux_files :
    ∀ (n : Nat) (fs : FS) (p : List String) (fs' : FS),
      mkdirAux n fs p = .ok fs' → fs'.files = fs.files := by
  intro n
  induction n with
  | zero =>
    intro fs p fs' h
    cases p with
    | nil => cases h; rfl
    | cons a t => cases h; rfl
  | succ m ih =>
    intro fs p fs' h
    cases p with
    | nil => cases h; rfl
    | cons a t =>
      rw [mkdirAux] at h
      by_cases h1 : fs.isDir (a :: t) = true
      · rw [if_pos h1] at h; cases h; rfl
      · rw [if_neg h1] at h
        by_cases h2 : fs.isFile (a :: t) = true
        · rw [if_pos h2] at h; cases h
        · rw [if_neg h2] at h
          cases hrec : mkdirAux m fs (a :: t).dropLast with
          | error e => rw [hrec] at h; cases h
          | ok fs2 =>
            rw [hrec] at h
            cases h
            exact ih fs _ fs2 hrec

theorem mkdirAux_dirs_mono :
    ∀ (n : Nat) (fs : FS) (p : List String) (fs' : FS) (q : List String),
      mkdirAux n fs p = .ok fs' → fs.dirs q = true → fs'.dirs q = true := by
  intro n
  induction n with
  | zero =>
    intro fs p fs' q h hq
    cases p with
    | nil => cases h; exact hq
    | cons a t => cases h; exact hq
  | succ m ih =>
    intro fs p fs' q h hq
    cases p with
    | nil => cases h; exact hq
    | cons a t =>
      rw [mkdirAux] at h
      by_cases h1 : fs.isDir (a :: t) = true
      · rw [if_pos h1] at h; cases h; exact hq
      · rw [if_neg h1] at h
        by_cases h2 : fs.isFile (a :: t) = true
        · rw [if_pos h2] at h; cases h
        · rw [if_neg h2] at h
          cases hrec : mkdirAux m fs (a :: t).dropLast with
          | error e => rw [hrec] at h; cases h
          | ok fs2 =>
            rw [hrec] at h
            cases h
            have := ih fs _ fs2 q hrec hq
            simp [this]

theorem mkdirAux_dirs_new :
    ∀ (n : Nat) (fs : FS) (p : List String) (fs' : FS) (q : List String),
      mkdirAux n fs p = .ok fs' → fs'.dirs q = true →
      fs.dirs q = true ∨ fs.files q = none := by
  intro n
  induction n with
  | zero =>
    intro fs p fs' q h hq
    cases p with
    | nil => cases h; exact .inl hq
    | cons a t => cases h; exact .inl hq
  | succ m ih =>
    intro fs p fs' q h hq
    cases p with
    | nil => cases h; exact .inl hq
    | cons a t =>
      rw [mkdirAux] at h
      by_cases h1 : fs.isDir (a :: t) = true
      · rw [if_pos h1] at h; cases h; exact .inl hq
      · rw [if_neg h1] at h
        by_cases h2 : fs.isFile (a :: t) = true
        · rw [if_pos h2] at h; cases h
        · rw [if_neg h2] at h
          cases hrec : mkdirAux m fs (a :: t).dropLast with
          | error e => rw [hrec] at h; cases h
          | ok fs2 =>
            rw [hrec] at h
            cases h
            simp only [Bool.or_eq_true, decide_eq_true_eq] at hq
            rcases hq with hq1 | hq2
            · subst hq1
              refine .inr ?_
              simp only [FS.isFile] at h2
              cases hf : fs.files (a :: t) with
              | none => rfl
              | some c => rw [hf] at h2; simp at h2
            · exact ih fs _ fs2 _ hrec hq2

theorem mkdirAux_target (n : Nat) (fs : FS) (a : String) (t : List String)
    (fs' : FS) (h : mkdirAux (n + 1) fs (a :: t) = .ok fs') :
    fs'.dirs (a :: t) = true := by
  rw [mkdirAux] at h
  by_cases h1 : fs.isDir (a :: t) = true
  · rw [if_pos h1] at h; cases h; exact h1
  · rw [if_neg h1] at h
    by_cases h2 : fs.isFile (a :: t) = true
    · rw [if_pos h2] at h; cases h
    · rw [if_neg h2] at h
      cases hrec : mkdirAux n fs (a :: t).dropLast with
      | error e => rw [hrec] at h; cases h
      | ok fs2 =>
        rw [hrec] at h
        cases h
        simp

theorem mkdirP_files {fs : FS} {p : List String} {fs' : FS}
    (h : fs.mkdirP p = .ok fs') : fs'.files = fs.files :=
  mkdirAux_files p.length fs p fs' h

theorem mkdirP_dirs_mono {fs : FS} {p : List String} {fs' : FS}
    {q : List String} (h : fs.mkdirP p = .ok fs') (hq : fs.dirs q = true) :
    fs'.dirs q = true :=
  mkdirAux_dirs_mono p.length fs p fs' q h hq

theorem mkdirP_dirs_new {fs : FS} {p : List String} {fs' : FS}
    {q : List String} (h : fs.mkdirP p = .ok fs') (hq : fs'.dirs q = true) :
    fs.dirs q = true ∨ fs.files q = none :=
  mkdirAux_dirs_new p.length fs p fs' q h hq

theorem mkdirP_target {fs : FS} {a : String} {t : List String} {fs' : FS}
    (h : fs.mkdirP (a :: t) = .ok fs') : fs'.dirs (a :: t) = true :=
  mkdirAux_target t.length fs a t fs' h

theorem mkdirP_noop {fs : FS} {p : List String} (h : fs.isDir p = true) :
    fs.mkdirP p = .ok fs := by
  cases p with
  | nil => rfl
  | cons a t =>
    show mkdirAux (t.length + 1) fs (a :: t) = .ok fs
    rw [mkdirAux, if_pos h]

theorem cd_files {fs : FS} {p : List String} {fs' : FS}
    (h : create_directory fs p = .ok fs') : fs'.files = fs.files := by
  rw [create_directory] at h
  by_cases hc : (fs.pathExists p && !fs.isDir p) = true
  · rw [if_pos hc] at h; cases h
  · rw [if_neg hc] at h; exact mkdirP_files h

theorem cd_dirs_mono {fs : FS} {p : List String} {fs' : FS} {q : List String}
    (h : create_directory fs p = .ok fs') (hq : fs.dirs q = true) :
    fs'.dirs q = true := by
  rw [create_directory] at h
  by_cases hc : (fs.pathExists p && !fs.isDir p) = true
  · rw [if_pos hc] at h; cases h
  · rw [if_neg hc] at h; exact mkdirP_dirs_mono h hq

theorem cd_dirs_new {fs : FS} {p : List String} {fs' : FS} {q : List String}
    (h : create_directory fs p = .ok fs') (hq : fs'.dirs q = true) :
    fs.dirs q = true ∨ fs.files q = none := by
  rw [create_directory] at h
  by_cases hc : (fs.pathExists p && !fs.isDir p) = true
  · rw [if_pos hc] at h; cases h
  · rw [if_neg hc] at h; exact mkdirP_dirs_new h hq

theorem cd_target {fs : FS} {a : String} {t : List String} {fs' : FS}
    (h : create_directory fs (a :: t) = .ok fs') : fs'.dirs (a :: t) = true := by
  rw [create_directory] at h
  by_cases hc : (fs.pathExists (a :: t) && !fs.isDir (a :: t)) = true
  · rw [if_pos hc] at h; cases h
  · rw [if_neg hc] at h; exact mkdirP_target h

theorem cd_noop {fs : FS} {p : List String} (h : fs.isDir p = true) :
    create_directory fs p = .ok fs := by
  have hc : (fs.pathExists p && !fs.isDir p) = false := by simp [h]
  simp [create_directory, hc, mkdirP_noop h]

theorem cd_err {fs : FS} {p : List String} (he : fs.pathExists p = true)
    (hd : fs.isDir p = false) :
    create_directory fs p =
      .error (ftErr ("Path exists but is not a directory: " ++ pathString p)) := by
  simp [create_directory, he, hd]

theorem write_ok_inv {fs : FS} {p : List String} {c : String} {fs' : FS}
    (h : fs.write p c = .ok fs') :
    fs.isDir p = false ∧
    fs' = ⟨fs.dirs, fun q => if q = p then some c else fs.files q⟩ := by
  rw [FS.write] at h
  by_cases hd : fs.isDir p = true
  · rw [if_pos hd] at h; cases h
  · rw [if_neg hd] at h
    cases h
    exact ⟨Bool.eq_false_iff.mpr hd, rfl⟩

theorem cf_err {fs : FS} {p : List String} {c : String}
    (he : fs.pathExists p = true) :
    create_file fs p c false =
      .error (ftErr ("File already exists: " ++ pathString p)) := by
  simp [create_file, he]

theorem cf_ok_elim {fs : FS} {p : List String} {c : String} {force : Bool}
    {fs' : FS} (h : create_file fs p c force = .ok fs') :
    ∃ fsm, fs.mkdirP p.dropLast = .ok fsm ∧ fsm.isDir p = false ∧
      fs' = ⟨fsm.dirs, fun q => if q = p then some c else fsm.files q⟩ := by
  rw [create_file] at h
  by_cases hc : (fs.pathExists p && !force) = true
  · rw [if_pos hc] at h; cases h
  · rw [if_neg hc] at h
    cases hm : fs.mkdirP p.dropLast with
    | error e => rw [hm] at h; cases h
    | ok fsm =>
      rw [hm] at h
      obtain ⟨hd, hfs⟩ := write_ok_inv h
      exact ⟨fsm, rfl, hd, hfs⟩

theorem cf_ok_guard {fs : FS} {p : List String} {c : String} {fs' : FS}
    (h : create_file fs p c false = .ok fs') : fs.pathExists p = false := by
  by_cases he : fs.pathExists p = true
  · rw [cf_err he] at h; cases h
  · exact Bool.eq_false_iff.mpr he

theorem cf_ok_files {fs : FS} {p : List String} {c : String} {force : Bool}
    {fs' : FS} (h : create_file fs p c force = .ok fs') (q : List String) :
    fs'.files q = if q = p then some c else fs.files q := by
  obtain ⟨fsm, hm, hd, hfs⟩ := cf_ok_elim h
  subst hfs
  simp only []
  rw [mkdirP_files hm]

theorem cf_ok_dirs {fs : FS} {p : List String} {c : String} {force : Bool}
    {fs' : FS} (h : create_file fs p c force = .ok fs') :
    ∃ fsm, fs.mkdirP p.dropLast = .ok fsm ∧ fs'.dirs = fsm.dirs := by
  obtain ⟨fsm, hm, hd, hfs⟩ := cf_ok_elim h
  exact ⟨fsm, hm, by rw [hfs]⟩

theorem cf_ok_dirs_mono {fs : FS} {p : List String} {c : String} {force : Bool}
    {fs' : FS} {q : List String} (h : create_file fs p c force = .ok fs')
    (hq : fs.dirs q = true) : fs'.dirs q = true := by
  obtain ⟨fsm, hm, hdq⟩ := cf_ok_dirs h
  rw [hdq]
  exact mkdirP_dirs_mono hm hq

theorem cf_ok_dirs_new {fs : FS} {p : List String} {c : String} {force : Bool}
    {fs' : FS} {q : List String} (h : create_file fs p c force = .ok fs')
    (hq : fs'.dirs q = true) : fs.dirs q = true ∨ fs.files q = none := by
  obtain ⟨fsm, hm, hdq⟩ := cf_ok_dirs h
  rw [hdq] at hq
  exact mkdirP_dirs_new hm hq

theorem cf_ok_target_not_dir {fs : FS} {p : List String} {c : String}
    {force : Bool} {fs' : FS} (h : create_file fs p c force = .ok fs') :
    fs'.dirs p = false := by
  obtain ⟨fsm, hm, hd, hfs⟩ := cf_ok_elim h
  subst hfs
  exact hd

theorem cf_ok_parent_dir {fs : FS} {p : List String} {c : String}
    {force : Bool} {fs' : FS} (h : create_file fs p c force = .ok fs') :
    p.dropLast = [] ∨ fs'.dirs p.dropLast = true := by
  obtain ⟨fsm, hm, hd, hfs⟩ := cf_ok_elim h
  cases hdl : p.dropLast with
  | nil => exact .inl rfl
  | cons a t =>
    rw [hdl] at hm
    have htar := mkdirP_target hm
    refine .inr ?_
    rw [hfs]
    exact htar

theorem cf_replay {fs : FS} {p : List String} {c : String}
    (hd : fs.isDir p = false)
    (hp : p.dropLast = [] ∨ fs.isDir p.dropLast = true) :
    create_file fs p c true =
      .ok ⟨fs.dirs, fun q => if q = p then some c else fs.files q⟩ := by
  have hm : fs.mkdirP p.dropLast = .ok fs := by
    rcases hp with h0 | h1
    · rw [h0]; rfl
    · exact mkdirP_noop h1
  simp [create_file, hm, FS.write, hd]

theorem cd_exists_mono {fs : FS} {p : List String} {fs' : FS} {q : List String}
    (h : create_directory fs p = .ok fs') (hq : fs.pathExists q = true) :
    fs'.pathExists q = true := by
  simp only [FS.pathExists, FS.isDir, FS.isFile, Bool.or_eq_true] at hq ⊢
  rcases hq with h1 | h1
  · exact .inl (cd_dirs_mono h h1)
  · rw [cd_files h]
    exact .inr h1

theorem cf_exists_mono {fs : FS} {p : List String} {c : String} {force : Bool}
    {fs' : FS} {q : List String} (h : create_file fs p c force = .ok fs')
    (hq : fs.pathExists q = true) : fs'.pathExists q = true := by
  simp only [FS.pathExists, FS.isDir, FS.isFile, Bool.or_eq_true] at hq ⊢
  rcases hq with h1 | h1
  · exact .inl (cf_ok_dirs_mono h h1)
  · refine .inr ?_
    rw [cf_ok_files h q]
    by_cases hqp : q = p
    · simp [hqp]
    · rw [if_neg hqp]
      exact h1

/-! ### Traversal lemmas for `generate_items` -/

theorem count_items_nil : count_items [] = 0 := by rw [count_items]

theorem count_items_cons (nm : String) (ty : ItemType)
    (ch : List StructureItem) (tpl cnt : Option String)
    (rest : List StructureItem) :
    count_items (.mk nm ty ch tpl cnt :: rest) =
      1 + count_items ch + count_items rest := by
  rw [count_items]

theorem gi_mono (render : Render) (force : Bool) :
    ∀ (n : Nat) (items : List StructureItem) (base : List String)
      (vars : List (String × String)) (fs fs' : FS) (cb cb' : Nat),
      count_items items ≤ n →
      generate_items render force items base vars fs cb = (fs', cb', none) →
      (∀ q, fs.dirs q = true → fs'.dirs q = true) ∧
      (∀ q, (fs.files q).isSome = true → (fs'.files q).isSome = true) := by
  intro n
  induction n with
  | zero =>
    intro items base vars fs fs' cb cb' hlen h
    cases items with
    | nil =>
      rw [generate_items] at h
      simp only [Prod.mk.injEq] at h
      rw [← h.1]
      exact ⟨fun q hq => hq, fun q hq => hq⟩
    | cons item rest =>
      cases item with
      | mk nm ty ch tpl cnt => simp [count_items] at hlen
  | succ m ih =>
    intro items base vars fs fs' cb cb' hlen h
    cases items with
    | nil =>
      rw [generate_items] at h
      simp only [Prod.mk.injEq] at h
      rw [← h.1]
      exact ⟨fun q hq => hq, fun q hq => hq⟩
    | cons item rest =>
      cases item with
      | mk nm ty ch tpl cnt =>
        have hch : count_items ch ≤ m := by simp [count_items] at hlen; omega
        have hrest : count_items rest ≤ m := by simp [count_items] at hlen; omega
        cases ty with
        | directory =>
          simp only [generate_items] at h
          cases hcd : create_directory fs (base ++ [nm]) with
          | error e => simp [hcd] at h
          | ok fs1 =>
            simp only [hcd] at h
            by_cases hche : ch.isEmpty
            · simp only [hche, if_true] at h
              have hr := ih rest base vars fs1 fs' (cb + 1) cb' hrest h
              exact ⟨fun q hq => hr.1 q (cd_dirs_mono hcd hq),
                fun q hq => hr.2 q (by
                  rw [cd_files hcd]; exact hq)⟩
            · simp only [hche, if_false] at h
              rcases hgch : generate_items render force ch (base ++ [nm]) vars
                  fs1 (cb + 1) with ⟨fs2, cb2, oe⟩
              cases oe with
              | some e => simp [hgch] at h
              | none =>
                simp only [hgch] at h
                have h1 := ih ch (base ++ [nm]) vars fs1 fs2 (cb + 1) cb2
                  hch hgch
                have h2 := ih rest base vars fs2 fs' cb2 cb' hrest h
                exact ⟨fun q hq => h2.1 q (h1.1 q (cd_dirs_mono hcd hq)),
                  fun q hq => h2.2 q (h1.2 q (by
                    rw [cd_files hcd]; exact hq))⟩
        | file =>
          simp only [generate_items] at h
          cases hrc : render_content render (.mk nm .file ch tpl cnt) vars with
          | error e => simp [hrc] at h
          | ok content =>
            simp only [hrc] at h
            cases hcf : create_file fs (base ++ [nm]) content force with
            | error e => simp [hcf] at h
            | ok fs1 =>
              simp only [hcf] at h
              have hr := ih rest base vars fs1 fs' (cb + 1) cb' hrest h
              refine ⟨fun q hq => hr.1 q (cf_ok_dirs_mono hcf hq),
                fun q hq => hr.2 q ?_⟩
              rw [cf_ok_files hcf q]
              by_cases hqp : q = base ++ [nm]
              · simp [hqp]
              · rw [if_neg hqp]; exact hq

theorem gi_dirs_new (render : Render) (force : Bool) :
    ∀ (n : Nat) (items : List StructureItem) (base : List String)
      (vars : List (String × String)) (fs fs' : FS) (cb cb' : Nat),
      count_items items ≤ n →
      generate_items render force items base vars fs cb = (fs', cb', none) →
      ∀ q, fs'.dirs q = true → fs.dirs q = true ∨ fs.files q = none := by
  intro n
  induction n with
  | zero =>
    intro items base vars fs fs' cb cb' hlen h q hq
    cases items with
    | nil =>
      rw [generate_items] at h
      simp only [Prod.mk.injEq] at h
      rw [← h.1] at hq
      exact .inl hq
    | cons item rest =>
      cases item with
      | mk nm ty ch tpl cnt => simp [count_items] at hlen
  | succ m ih =>
    intro items base vars fs fs' cb cb' hlen h q hq
    cases items with
    | nil =>
      rw [generate_items] at h
      simp only [Prod.mk.injEq] at h
      rw [← h.1] at hq
      exact .inl hq
    | cons item rest =>
      cases item with
      | mk nm ty ch tpl cnt =>
        have hch : count_items ch ≤ m := by simp [count_items] at hlen; omega
        have hrest : count_items rest ≤ m := by simp [count_items] at hlen; omega
        cases ty with
        | directory =>
          simp only [generate_items] at h
          cases hcd : create_directory fs (base ++ [nm]) with
          | error e => simp [hcd] at h
          | ok fs1 =>
            simp only [hcd] at h
            by_cases hche : ch.isEmpty
            · simp only [hche, if_true] at h
              rcases ih rest base vars fs1 fs' (cb + 1) cb' hrest h q hq with
                h1 | h1
              · exact cd_dirs_new hcd h1
              · rw [cd_files hcd] at h1
                exact .inr h1
            · simp only [hche, if_false] at h
              rcases hgch : generate_items render force ch (base ++ [nm]) vars
                  fs1 (cb + 1) with ⟨fs2, cb2, oe⟩
              cases oe with
              | some e => simp [hgch] at h
              | none =>
                simp only [hgch] at h
                rcases ih rest base vars fs2 fs' cb2 cb' hrest h q hq with
                  h1 | h1
                · rcases ih ch (base ++ [nm]) vars fs1 fs2 (cb + 1) cb2 hch
                      hgch q h1 with h2 | h2
                  · exact cd_dirs_new hcd h2
                  · rw [cd_files hcd] at h2
                    exact .inr h2
                · cases hfq : fs.files q with
                  | none => exact .inr rfl
                  | some c =>
                    have hs1 : (fs1.files q).isSome = true := by
                      rw [cd_files hcd, hfq]; rfl
                    have hs2 := (gi_mono render force m ch (base ++ [nm]) vars
                      fs1 fs2 (cb + 1) cb2 hch hgch).2 q hs1
                    rw [h1] at hs2
                    cases hs2
        | file =>
          simp only [generate_items] at h
          cases hrc : render_content render (.mk nm .file ch tpl cnt) vars with
          | error e => simp [hrc] at h
          | ok content =>
            simp only [hrc] at h
            cases hcf : create_file fs (base ++ [nm]) content force with
            | error e => simp [hcf] at h
            | ok fs1 =>
              simp only [hcf] at h
              rcases ih rest base vars fs1 fs' (cb + 1) cb' hrest h q hq with
                h1 | h1
              · exact cf_ok_dirs_new hcf h1
              · rw [cf_ok_files hcf q] at h1
                by_cases hqp : q = base ++ [nm]
                · rw [if_pos hqp] at h1; cases h1
                · rw [if_neg hqp] at h1
                  exact .inr h1

theorem gi_cb_mono (render : Render) (force : Bool) :
    ∀ (n : Nat) (items : List StructureItem) (base : List String)
      (vars : List (String × String)) (fs : FS) (cb : Nat),
      count_items items ≤ n →
      cb ≤ (generate_items render force items base vars fs cb).2.1 := by
  intro n
  induction n with
  | zero =>
    intro items base vars fs cb hlen
    cases items with
    | nil => rw [generate_items]
    | cons item rest =>
      cases item with
      | mk nm ty ch tpl cnt => simp [count_items] at hlen
  | succ m ih =>
    intro items base vars fs cb hlen
    cases items with
    | nil => rw [generate_items]
    | cons item rest =>
      cases item with
      | mk nm ty ch tpl cnt =>
        have hch : count_items ch ≤ m := by simp [count_items] at hlen; omega
        have hrest : count_items rest ≤ m := by simp [count_items] at hlen; omega
        cases ty with
        | directory =>
          simp only [generate_items]
          cases hcd : create_directory fs (base ++ [nm]) with
          | error e => simp [hcd]
          | ok fs1 =>
            simp only [hcd]
            by_cases hche : ch.isEmpty = true
            · simp only [hche, if_true]
              have := ih rest base vars fs1 (cb + 1) hrest
              omega
            · have hche' : ch.isEmpty = false := Bool.eq_false_iff.mpr hche
              simp only [hche', Bool.false_eq_true, if_false]
              rcases hgch : generate_items render force ch (base ++ [nm]) vars
                  fs1 (cb + 1) with ⟨fs2, cb2, oe⟩
              have hcb2 : cb + 1 ≤ cb2 := by
                have := ih ch (base ++ [nm]) vars fs1 (cb + 1) hch
                rw [hgch] at this
                exact this
              cases oe with
              | some e =>
                simp only [hgch]
                omega
              | none =>
                simp only [hgch]
                have := ih rest base vars fs2 cb2 hrest
                omega
        | file =>
          simp only [generate_items]
          cases hrc : render_content render (.mk nm .file ch tpl cnt) vars with
          | error e => simp [hrc]
          | ok content =>
            simp only [hrc]
            cases hcf : create_file fs (base ++ [nm]) content force with
            | error e => simp [hcf]
            | ok fs1 =>
              simp only [hcf]
              have := ih rest base vars fs1 (cb + 1) hrest
              omega

/-- On a successful run over items satisfying the data-model
invariant, the number of callback invocations is exactly the node
count. -/
theorem gi_cb (render : Render) (force : Bool) :
    ∀ (n : Nat) (items : List StructureItem) (base : List String)
      (vars : List (String × String)) (fs fs' : FS) (cb cb' : Nat),
      count_items items ≤ n →
      itemsInv items = true →
      generate_items render force items base vars fs cb = (fs', cb', none) →
      cb' = cb + count_items items := by
  intro n
  induction n with
  | zero =>
    intro items base vars fs fs' cb cb' hlen hinv h
    cases items with
    | nil =>
      rw [generate_items] at h
      simp only [Prod.mk.injEq] at h
      simp [count_items, ← h.2.1]
    | cons item rest =>
      cases item with
      | mk nm ty ch tpl cnt => simp [count_items] at hlen
  | succ m ih =>
    intro items base vars fs fs' cb cb' hlen hinv h
    cases items with
    | nil =>
      rw [generate_items] at h
      simp only [Prod.mk.injEq] at h
      simp [count_items, ← h.2.1]
    | cons item rest =>
      cases item with
      | mk nm ty ch tpl cnt =>
        have hch : count_items ch ≤ m := by simp [count_items] at hlen; omega
        have hrest : count_items rest ≤ m := by simp [count_items] at hlen; omega
        have hinv1 : itemInv (.mk nm ty ch tpl cnt) = true := by
          simp only [itemsInv, Bool.and_eq_true] at hinv
          exact hinv.1
        have hinvr : itemsInv rest = true := by
          simp only [itemsInv, Bool.and_eq_true] at hinv
          exact hinv.2
        have hinvc : itemsInv ch = true := by
          simp only [itemInv, Bool.and_eq_true] at hinv1
          exact hinv1.2
        cases ty with
        | directory =>
          simp only [generate_items] at h
          cases hcd : create_directory fs (base ++ [nm]) with
          | error e => simp [hcd] at h
          | ok fs1 =>
            simp only [hcd] at h
            by_cases hche : ch.isEmpty
            · simp only [hche, if_true] at h
              have hc0 : count_items ch = 0 := by
                rw [List.isEmpty_iff.mp hche, count_items_nil]
              have := ih rest base vars fs1 fs' (cb + 1) cb' hrest hinvr h
              simp [count_items, hc0]
              omega
            · simp only [hche, if_false] at h
              rcases hgch : generate_items render force ch (base ++ [nm]) vars
                  fs1 (cb + 1) with ⟨fs2, cb2, oe⟩
              cases oe with
              | some e => simp [hgch] at h
              | none =>
                simp only [hgch] at h
                have h1 := ih ch (base ++ [nm]) vars fs1 fs2 (cb + 1) cb2 hch
                  hinvc hgch
                have h2 := ih rest base vars fs2 fs' cb2 cb' hrest hinvr h
                simp [count_items]
                omega
        | file =>
          have hc0 : count_items ch = 0 := by
            simp only [itemInv, Bool.and_eq_true, Bool.or_eq_true,
              List.isEmpty_iff, decide_eq_true_eq] at hinv1
            rcases hinv1.1 with h1 | h1
            · rw [h1, count_items_nil]
            · cases h1
          simp only [generate_items] at h
          cases hrc : render_content render (.mk nm .file ch tpl cnt) vars with
          | error e => simp [hrc] at h
          | ok content =>
            simp only [hrc] at h
            cases hcf : create_file fs (base ++ [nm]) content force with
            | error e => simp [hcf] at h
            | ok fs1 =>
              simp only [hcf] at h
              have := ih rest base vars fs1 fs' (cb + 1) cb' hrest hinvr h
              simp [count_items, hc0]
              omega

/-- With enough fuel, the fuel-indexed evaluator agrees with
`generate_items`. -/
theorem genAux_eq (render : Render) (force : Bool) :
    ∀ (n fuel : Nat) (items : List StructureItem) (base : List String)
      (vars : List (String × String)) (fs : FS) (cb : Nat),
      count_items items ≤ n → count_items items ≤ fuel →
      generate_items render force items base vars fs cb =
        genAux render force fuel items base vars fs cb := by
  intro n
  induction n with
  | zero =>
    intro fuel items base vars fs cb hlen hfuel
    cases items with
    | nil =>
      rw [generate_items]
      cases fuel with
      | zero => rfl
      | succ f => rfl
    | cons item rest =>
      cases item with
      | mk nm ty ch tpl cnt => simp [count_items] at hlen
  | succ m ih =>
    intro fuel items base vars fs cb hlen hfuel
    cases items with
    | nil =>
      rw [generate_items]
      cases fuel with
      | zero => rfl
      | succ f => rfl
    | cons item rest =>
      cases item with
      | mk nm ty ch tpl cnt =>
        have hch : count_items ch ≤ m := by simp [count_items] at hlen; omega
        have hrest : count_items rest ≤ m := by simp [count_items] at hlen; omega
        cases fuel with
        | zero => simp [count_items] at hfuel
        | succ f =>
          have hchf : count_items ch ≤ f := by
            simp [count_items] at hfuel; omega
          have hrestf : count_items rest ≤ f := by
            simp [count_items] at hfuel; omega
          cases ty with
          | directory =>
            simp only [generate_items, genAux]
            cases hcd : create_directory fs (base ++ [nm]) with
            | error e => rfl
            | ok fs1 =>
              by_cases hche : ch.isEmpty = true
              · simp only [hche, if_true]
                exact ih f rest base vars fs1 (cb + 1) hrest hrestf
              · have hche' : ch.isEmpty = false := Bool.eq_false_iff.mpr hche
                simp only [hche', Bool.false_eq_true, if_false]
                rw [ih f ch (base ++ [nm]) vars fs1 (cb + 1) hch hchf]
                rcases hgch : genAux render force f ch (base ++ [nm]) vars fs1
                    (cb + 1) with ⟨fs2, cb2, oe⟩
                cases oe with
                | some e => rfl
                | none => exact ih f rest base vars fs2 cb2 hrest hrestf
          | file =>
            simp only [generate_items, genAux]
            cases hrc : render_content render (.mk nm .file ch tpl cnt) vars with
            | error e => rfl
            | ok content =>
              cases hcf : create_file fs (base ++ [nm]) content force with
              | error e => simp only [hcf]
              | ok fs1 =>
                simp only [hcf]
                exact ih f rest base vars fs1 (cb + 1) hrest hrestf

/-- Evaluation form of `generate` built from the fuel-indexed
evaluator; the right-hand side reduces in the kernel on concrete
inputs. -/
theorem generate_eval (render : Render) (force : Bool)
    (s : ProjectStructure) (output : List String) (fs : FS) (fuel : Nat)
    (hf : count_items s.items ≤ fuel) :
    generate render force s output fs =
      match create_directory fs (output ++ [s.root]) with
      | .error e => (fs, 0, some e)
      | .ok fs1 =>
        genAux render force fuel s.items (output ++ [s.root]) s.vars fs1 0 := by
  rw [generate]
  cases hcd : create_directory fs (output ++ [s.root]) with
  | error e => simp [hcd]
  | ok fs1 =>
    simp only [hcd]
    exact genAux_eq render force (count_items s.items) fuel
      s.items (output ++ [s.root]) s.vars fs1 0 le_rfl hf

/-! ### Progress-callback accounting (claim C7) -/

/-- C7: on a successful generation the progress callback fires
exactly `count_items` times — once per node over the entire tree,
the root directory excluded (the structure is assumed to satisfy the
data-model invariant of §3: file nodes carry no children, as every
parse result does); the callback fires before the node is processed,
so a traversal of a non-empty item list counts the first node even
when processing it fails; for the specification's end-to-end example
the callback fires exactly 5 times. -/
theorem claim_C7 :
    (∀ (render : Render) (force : Bool) (s : ProjectStructure)
        (output : List String) (fs fs' : FS) (n : Nat),
      itemsInv s.items = true →
      generate render force s output fs = (fs', n, none) →
      n = count_items s.items) ∧
    (∀ (render : Render) (force : Bool) (item : StructureItem)
        (rest : List StructureItem) (base : List String)
        (vars : List (String × String)) (fs : FS) (cb : Nat),
      cb + 1 ≤ (generate_items render force (item :: rest) base vars fs cb).2.1) ∧
    ((generate exRender false exampleStructure ["out"] emptyFS).2.1 = 5 ∧
     (generate exRender false exampleStructure ["out"] emptyFS).2.2 = none ∧
     count_items exampleStructure.items = 5) := by
  refine ⟨?_, ?_, ?_, ?_, ?_⟩
  · intro render force s output fs fs' n hinv h
    rw [generate] at h
    cases hcd : create_directory fs (output ++ [s.root]) with
    | error e => simp [hcd] at h
    | ok fs1 =>
      simp only [hcd] at h
      have := gi_cb render force (count_items s.items) s.items
        (output ++ [s.root]) s.vars fs1 fs' 0 n le_rfl hinv h
      omega
  · intro render force item rest base vars fs cb
    cases item with
    | mk nm ty ch tpl cnt =>
      cases ty with
      | directory =>
        simp only [generate_items]
        cases hcd : create_directory fs (base ++ [nm]) with
        | error e => simp [hcd]
        | ok fs1 =>
          simp only [hcd]
          by_cases hche : ch.isEmpty = true
          · simp only [hche, if_true]
            exact gi_cb_mono render force (count_items rest) rest base vars
              fs1 (cb + 1) le_rfl
          · have hche' : ch.isEmpty = false := Bool.eq_false_iff.mpr hche
            simp only [hche', Bool.false_eq_true, if_false]
            rcases hgch : generate_items render force ch (base ++ [nm]) vars
                fs1 (cb + 1) with ⟨fs2, cb2, oe⟩
            have hcb2 : cb + 1 ≤ cb2 := by
              have := gi_cb_mono render force (count_items ch) ch (base ++ [nm])
                vars fs1 (cb + 1) le_rfl
              rw [hgch] at this
              exact this
            cases oe with
            | some e =>
              simp only [hgch]
              omega
            | none =>
              simp only [hgch]
              have := gi_cb_mono render force (count_items rest) rest base vars
                fs2 cb2 le_rfl
              omega
      | file =>
        simp only [generate_items]
        cases hrc : render_content render (.mk nm .file ch tpl cnt) vars with
        | error e => simp [hrc]
        | ok content =>
          simp only [hrc]
          cases hcf : create_file fs (base ++ [nm]) content force with
          | error e => simp [hcf]
          | ok fs1 =>
            simp only [hcf]
            exact gi_cb_mono render force (count_items rest) rest base vars
              fs1 (cb + 1) le_rfl
  · rw [generate_eval exRender false exampleStructure ["out"] emptyFS 5
      (by simp [exampleStructure, count_items])]
    rfl
  · rw [generate_eval exRender false exampleStructure ["out"] emptyFS 5
      (by simp [exampleStructure, count_items])]
    rfl
  · simp [exampleStructure, count_items]

/-- Witness for C7 at the example structure. -/
theorem claim_C7_witness :
    (generate exRender false exampleStructure ["out"] emptyFS).2.1 =
      count_items exampleStructure.items := by
  have hgen : generate exRender false exampleStructure ["out"] emptyFS =
      ((generate exRender false exampleStructure ["out"] emptyFS).1,
       (generate exRender false exampleStructure ["out"] emptyFS).2.1, none) := by
    rw [generate_eval exRender false exampleStructure ["out"] emptyFS 5
      (by simp [exampleStructure, count_items])]
    rfl
  exact claim_C7.1 exRender false exampleStructure ["out"] emptyFS _ _
    (by simp [exampleStructure, itemInv, itemsInv]) hgen

/-! ### Overwrite guard (claim C8) -/

/-- With `force = false`, the content stored at any pre-existing path
is never changed by the traversal, whether it completes or aborts. -/
theorem gi_preserve (render : Render) :
    ∀ (n : Nat) (items : List StructureItem) (base : List String)
      (vars : List (String × String)) (fs : FS) (cb : Nat) (q : List String),
      count_items items ≤ n →
      fs.pathExists q = true →
      (generate_items render false items base vars fs cb).1.files q =
          fs.files q ∧
      (generate_items render false items base vars fs cb).1.pathExists q =
          true := by
  intro n
  induction n with
  | zero =>
    intro items base vars fs cb q hlen hq
    cases items with
    | nil => rw [generate_items]; exact ⟨rfl, hq⟩
    | cons item rest =>
      cases item with
      | mk nm ty ch tpl cnt => simp [count_items] at hlen
  | succ m ih =>
    intro items base vars fs cb q hlen hq
    cases items with
    | nil => rw [generate_items]; exact ⟨rfl, hq⟩
    | cons item rest =>
      cases item with
      | mk nm ty ch tpl cnt =>
        have hch : count_items ch ≤ m := by simp [count_items] at hlen; omega
        have hrest : count_items rest ≤ m := by simp [count_items] at hlen; omega
        cases ty with
        | directory =>
          simp only [generate_items]
          cases hcd : create_directory fs (base ++ [nm]) with
          | error e => simp [hcd]; exact hq
          | ok fs1 =>
            simp only [hcd]
            have hq1 : fs1.pathExists q = true := cd_exists_mono hcd hq
            have hf1 : fs1.files q = fs.files q := by rw [cd_files hcd]
            by_cases hche : ch.isEmpty = true
            · simp only [hche, if_true]
              have := ih rest base vars fs1 cb.succ q hrest hq1
              rw [hf1] at this
              exact this
            · have hche' : ch.isEmpty = false := Bool.eq_false_iff.mpr hche
              simp only [hche', Bool.false_eq_true, if_false]
              rcases hgch : generate_items render false ch (base ++ [nm]) vars
                  fs1 (cb + 1) with ⟨fs2, cb2, oe⟩
              have hc := ih ch (base ++ [nm]) vars fs1 (cb + 1) q hch hq1
              rw [hgch] at hc
              cases oe with
              | some e =>
                simp only [hgch]
                exact ⟨by rw [hc.1, hf1], hc.2⟩
              | none =>
                simp only [hgch]
                have hr := ih rest base vars fs2 cb2 q hrest hc.2
                exact ⟨by rw [hr.1, hc.1, hf1], hr.2⟩
        | file =>
          simp only [generate_items]
          cases hrc : render_content render (.mk nm .file ch tpl cnt) vars with
          | error e => simp [hrc]; exact hq
          | ok content =>
            simp only [hrc]
            cases hcf : create_file fs (base ++ [nm]) content false with
            | error e => simp [hcf]; exact hq
            | ok fs1 =>
              simp only [hcf]
              have hne : fs.pathExists (base ++ [nm]) = false := cf_ok_guard hcf
              have hqp : q ≠ base ++ [nm] := by
                intro he
                rw [he] at hq
                rw [hq] at hne
                cases hne
              have hq1 : fs1.pathExists q = true := cf_exists_mono hcf hq
              have hf1 : fs1.files q = fs.files q := by
                rw [cf_ok_files hcf q, if_neg hqp]
              have := ih rest base vars fs1 (cb + 1) q hrest hq1
              rw [hf1] at this
              exact this

/-- With `force = false`, a successful traversal implies no reachable
file target pre-existed. -/
theorem gi_no_preexist (render : Render) :
    ∀ (n : Nat) (items : List StructureItem) (base : List String)
      (vars : List (String × String)) (fs fs' : FS) (cb cb' : Nat),
      count_items items ≤ n →
      generate_items render false items base vars fs cb = (fs', cb', none) →
      ∀ p, p ∈ filePaths items base → fs.pathExists p = false := by
  intro n
  induction n with
  | zero =>
    intro items base vars fs fs' cb cb' hlen h p hp
    cases items with
    | nil => rw [filePaths] at hp; cases hp
    | cons item rest =>
      cases item with
      | mk nm ty ch tpl cnt => simp [count_items] at hlen
  | succ m ih =>
    intro items base vars fs fs' cb cb' hlen h p hp
    cases items with
    | nil => rw [filePaths] at hp; cases hp
    | cons item rest =>
      cases item with
      | mk nm ty ch tpl cnt =>
        have hch : count_items ch ≤ m := by simp [count_items] at hlen; omega
        have hrest : count_items rest ≤ m := by simp [count_items] at hlen; omega
        cases ty with
        | directory =>
          rw [filePaths] at hp
          simp only [generate_items] at h
          cases hcd : create_directory fs (base ++ [nm]) with
          | error e => simp [hcd] at h
          | ok fs1 =>
            simp only [hcd] at h
            by_cases hche : ch.isEmpty = true
            · simp only [hche, if_true] at h hp
              rcases List.mem_append.mp hp with hp1 | hp1
              · cases hp1
              · cases hex : fs.pathExists p with
                | false => rfl
                | true =>
                  have := ih rest base vars fs1 fs' (cb + 1) cb' hrest h p hp1
                  rw [cd_exists_mono hcd hex] at this
                  cases this
            · have hche' : ch.isEmpty = false := Bool.eq_false_iff.mpr hche
              simp only [hche', Bool.false_eq_true, if_false] at h hp
              rcases hgch : generate_items render false ch (base ++ [nm]) vars
                  fs1 (cb + 1) with ⟨fs2, cb2, oe⟩
              cases oe with
              | some e => simp [hgch] at h
              | none =>
                simp only [hgch] at h
                rcases List.mem_append.mp hp with hp1 | hp1
                · cases hex : fs.pathExists p with
                  | false => rfl
                  | true =>
                    have := ih ch (base ++ [nm]) vars fs1 fs2 (cb + 1) cb2 hch
                      hgch p hp1
                    rw [cd_exists_mono hcd hex] at this
                    cases this
                · cases hex : fs.pathExists p with
                  | false => rfl
                  | true =>
                    have hq1 := cd_exists_mono hcd hex
                    have hq2 := (gi_preserve render m ch (base ++ [nm]) vars
                      fs1 (cb + 1) p hch hq1).2
                    rw [hgch] at hq2
                    have := ih rest base vars fs2 fs' cb2 cb' hrest h p hp1
                    rw [hq2] at this
                    cases this
        | file =>
          rw [filePaths] at hp
          simp only [generate_items] at h
          cases hrc : render_content render (.mk nm .file ch tpl cnt) vars with
          | error e => simp [hrc] at h
          | ok content =>
            simp only [hrc] at h
            cases hcf : create_file fs (base ++ [nm]) content false with
            | error e => simp [hcf] at h
            | ok fs1 =>
              simp only [hcf] at h
              rcases List.mem_append.mp hp with hp1 | hp1
              · rcases List.mem_singleton.mp hp1 with rfl
                exact cf_ok_guard hcf
              · cases hex : fs.pathExists p with
                | false => rfl
                | true =>
                  have := ih rest base vars fs1 fs' (cb + 1) cb' hrest h p hp1
                  rw [cf_exists_mono hcf hex] at this
                  cases this

/-- C8 (amended: the exception raised is the base `ForgeTreeError`,
not the `GenerationError` subclass): with `force = false`, if a
reachable file node's target path already exists then the traversal
fails and the content stored at that path is unchanged; the
`_create_file` guard itself raises "File already exists"; and with
any `force` setting a directory collision is tolerated exactly when
the existing path is a directory. -/
theorem claim_C8 :
    (∀ (render : Render) (items : List StructureItem) (base : List String)
        (vars : List (String × String)) (fs : FS) (cb : Nat) (p : List String),
      p ∈ filePaths items base →
      fs.pathExists p = true →
      (generate_items render false items base vars fs cb).2.2 ≠ none ∧
      (generate_items render false items base vars fs cb).1.files p =
        fs.files p) ∧
    (∀ (fs : FS) (p : List String) (c : String),
      fs.pathExists p = true →
      create_file fs p c false =
        .error (ftErr ("File already exists: " ++ pathString p))) ∧
    (∀ (fs : FS) (p : List String),
      fs.isDir p = true → create_directory fs p = .ok fs) ∧
    (∀ (fs : FS) (p : List String),
      fs.pathExists p = true → fs.isDir p = false →
      create_directory fs p =
        .error (ftErr ("Path exists but is not a directory: " ++
          pathString p))) := by
  refine ⟨?_, ?_, ?_, ?_⟩
  · intro render items base vars fs cb p hp hex
    refine ⟨?_, (gi_preserve render (count_items items) items base vars fs cb
      p le_rfl hex).1⟩
    intro hnone
    have heta : generate_items render false items base vars fs cb =
        ((generate_items render false items base vars fs cb).1,
         (generate_items render false items base vars fs cb).2.1, none) := by
      rw [← hnone]
    have := gi_no_preexist render (count_items items) items base vars fs
      (generate_items render false items base vars fs cb).1
      cb (generate_items render false items base vars fs cb).2.1
      le_rfl heta p hp
    rw [hex] at this
    cases this
  · intro fs p c he
    exact cf_err he
  · intro fs p h
    exact cd_noop h
  · intro fs p he hd
    exact cd_err he hd

/-- C8 counterexample to the claim as stated: the collision exception
raised by generation is the base `ForgeTreeError`, whose class tag is
not `GenerationError` (file_generator.py raises `ForgeTreeError`,
never the `GenerationError` subclass). -/
theorem claim_C8_cex :
    (generate exRender false exCollideStructure ["out"] exCollideFS).2.2 =
      some (ftErr ("File already exists: " ++
        pathString ["out", "proj", "a.txt"])) ∧
    ErrClass.forgeTreeError ≠ ErrClass.generationError := by
  constructor
  · rw [generate_eval exRender false exCollideStructure ["out"] exCollideFS 1
      (by simp [exCollideStructure, count_items])]
    rfl
  · decide

/-- Witness for C8 at a concrete collision. -/
theorem claim_C8_witness :
    create_file exCollideFS ["out", "proj", "a.txt"] "new" false =
      .error (ftErr ("File already exists: " ++
        pathString ["out", "proj", "a.txt"])) :=
  claim_C8.2.1 exCollideFS ["out", "proj", "a.txt"] "new" (by decide)

/-! ### Idempotent regeneration (claim C9) -/

theorem cd_target_ne {fs : FS} {p : List String} {fs' : FS} (hne : p ≠ [])
    (h : create_directory fs p = .ok fs') : fs'.dirs p = true := by
  cases p with
  | nil => exact absurd rfl hne
  | cons a t => exact cd_target h

theorem lastVal_append (A B : List (List String × String)) (q : List String) :
    lastVal (A ++ B) q =
      match lastVal B q with
      | some c => some c
      | none => lastVal A q := by
  induction A with
  | nil =>
    cases h : lastVal B q with
    | none => simp [h, lastVal]
    | some c => simp [h]
  | cons pc A ih =>
    obtain ⟨p, c⟩ := pc
    rw [List.cons_append, lastVal, ih]
    cases hB : lastVal B q with
    | some c2 => simp
    | none =>
      cases hA : lastVal A q with
      | some c3 => simp [lastVal, hA]
      | none => simp [lastVal, hA]

/-- On a successful run the final content of every path is the last
write the traversal performs there, and paths never written keep
their prior content. -/
theorem gi_files_char (render : Render) (force : Bool) :
    ∀ (n : Nat) (items : List StructureItem) (base : List String)
      (vars : List (String × String)) (fs fs' : FS) (cb cb' : Nat),
      count_items items ≤ n →
      generate_items render force items base vars fs cb = (fs', cb', none) →
      ∀ q, fs'.files q =
        match lastVal (writesOf render vars items base) q with
        | some c => some c
        | none => fs.files q := by
  intro n
  induction n with
  | zero =>
    intro items base vars fs fs' cb cb' hlen h q
    cases items with
    | nil =>
      rw [generate_items] at h
      simp only [Prod.mk.injEq] at h
      rw [writesOf, ← h.1]
      rfl
    | cons item rest =>
      cases item with
      | mk nm ty ch tpl cnt => simp [count_items] at hlen
  | succ m ih =>
    intro items base vars fs fs' cb cb' hlen h q
    cases items with
    | nil =>
      rw [generate_items] at h
      simp only [Prod.mk.injEq] at h
      rw [writesOf, ← h.1]
      rfl
    | cons item rest =>
      cases item with
      | mk nm ty ch tpl cnt =>
        have hch : count_items ch ≤ m := by simp [count_items] at hlen; omega
        have hrest : count_items rest ≤ m := by simp [count_items] at hlen; omega
        cases ty with
        | directory =>
          rw [writesOf]
          simp only [generate_items] at h
          cases hcd : create_directory fs (base ++ [nm]) with
          | error e => simp [hcd] at h
          | ok fs1 =>
            simp only [hcd] at h
            by_cases hche : ch.isEmpty = true
            · simp only [hche, if_true, List.nil_append] at h ⊢
              rw [ih rest base vars fs1 fs' (cb + 1) cb' hrest h q,
                cd_files hcd]
            · have hche' : ch.isEmpty = false := Bool.eq_false_iff.mpr hche
              simp only [hche', Bool.false_eq_true, if_false] at h ⊢
              rcases hgch : generate_items render force ch (base ++ [nm]) vars
                  fs1 (cb + 1) with ⟨fs2, cb2, oe⟩
              cases oe with
              | some e => simp [hgch] at h
              | none =>
                simp only [hgch] at h
                rw [ih rest base vars fs2 fs' cb2 cb' hrest h q, lastVal_append]
                cases hr : lastVal (writesOf render vars rest base) q with
                | some c => simp
                | none =>
                  simp only []
                  rw [ih ch (base ++ [nm]) vars fs1 fs2 (cb + 1) cb2 hch hgch q,
                    cd_files hcd]
        | file =>
          rw [writesOf]
          simp only [generate_items] at h
          cases hrc : render_content render (.mk nm .file ch tpl cnt) vars with
          | error e => simp [hrc] at h
          | ok content =>
            simp only [hrc] at h
            cases hcf : create_file fs (base ++ [nm]) content force with
            | error e => simp [hcf] at h
            | ok fs1 =>
              simp only [hcf] at h
              simp only [hrc, List.singleton_append]
              rw [ih rest base vars fs1 fs' (cb + 1) cb' hrest h q, lastVal]
              cases hr : lastVal (writesOf render vars rest base) q with
              | some c2 => simp
              | none =>
                simp only []
                rw [cf_ok_files hcf q]
                by_cases hqp : q = base ++ [nm]
                · simp [hqp]
                · rw [if_neg hqp, if_neg (fun he => hqp he.symm)]

/-- Replay: a second traversal with `force = true`, started from a
state whose directory map agrees with the final state `F` of a larger
successful first run (of which this run is a part), succeeds, fires
the same number of callbacks, and creates no directories. -/
theorem gi_replay (render : Render) (f1 : Bool) :
    ∀ (n : Nat) (items : List StructureItem) (base : List String)
      (vars : List (String × String)) (fs fs1 : FS) (cb cb1 : Nat)
      (F g : FS) (cb2 : Nat),
      count_items items ≤ n →
      generate_items render f1 items base vars fs cb = (fs1, cb1, none) →
      (∀ q, fs1.dirs q = true → F.dirs q = true) →
      (∀ q, F.dirs q = true → fs1.dirs q = true ∨ fs1.files q = none) →
      (∀ q, g.dirs q = F.dirs q) →
      ∃ g', generate_items render true items base vars g cb2 =
          (g', cb2 + (cb1 - cb), none) ∧ ∀ q, g'.dirs q = g.dirs q := by
  intro n
  induction n with
  | zero =>
    intro items base vars fs fs1 cb cb1 F g cb2 hlen h hm hn hg
    cases items with
    | nil =>
      rw [generate_items] at h
      simp only [Prod.mk.injEq] at h
      refine ⟨g, ?_, fun q => rfl⟩
      rw [generate_items]
      have : cb2 + (cb1 - cb) = cb2 := by omega
      rw [this]
    | cons item rest =>
      cases item with
      | mk nm ty ch tpl cnt => simp [count_items] at hlen
  | succ m ih =>
    intro items base vars fs fs1 cb cb1 F g cb2 hlen h hm hn hg
    cases items with
    | nil =>
      rw [generate_items] at h
      simp only [Prod.mk.injEq] at h
      refine ⟨g, ?_, fun q => rfl⟩
      rw [generate_items]
      have : cb2 + (cb1 - cb) = cb2 := by omega
      rw [this]
    | cons item rest =>
      cases item with
      | mk nm ty ch tpl cnt =>
        have hch : count_items ch ≤ m := by simp [count_items] at hlen; omega
        have hrest : count_items rest ≤ m := by simp [count_items] at hlen; omega
        have hpne : base ++ [nm] ≠ [] := by simp
        cases ty with
        | directory =>
          simp only [generate_items] at h
          cases hcd : create_directory fs (base ++ [nm]) with
          | error e => simp [hcd] at h
          | ok fsx =>
            simp only [hcd] at h
            have hdx : fsx.dirs (base ++ [nm]) = true := cd_target_ne hpne hcd
            by_cases hche : ch.isEmpty = true
            · simp only [hche, if_true] at h
              have hcm := gi_cb_mono render f1 (count_items rest) rest base
                vars fsx (cb + 1) le_rfl
              rw [h] at hcm
              have hcb : cb + 1 ≤ cb1 := hcm
              have hd1 : fs1.dirs (base ++ [nm]) = true :=
                (gi_mono render f1 (count_items rest) rest base vars fsx fs1
                  (cb + 1) cb1 le_rfl h).1 _ hdx
              have hgp : g.dirs (base ++ [nm]) = true := by
                rw [hg]; exact hm _ hd1
              obtain ⟨g', hg'eq, hg'dirs⟩ := ih rest base vars fsx fs1 (cb + 1)
                cb1 F g (cb2 + 1) hrest h hm hn hg
              refine ⟨g', ?_, hg'dirs⟩
              simp only [generate_items, cd_noop hgp, hche, if_true, hg'eq]
              have : cb2 + 1 + (cb1 - (cb + 1)) = cb2 + (cb1 - cb) := by omega
              rw [this]
            · have hche' : ch.isEmpty = false := Bool.eq_false_iff.mpr hche
              simp only [hche', Bool.false_eq_true, if_false] at h
              rcases hgch : generate_items render f1 ch (base ++ [nm]) vars
                  fsx (cb + 1) with ⟨fsc, cbc, oe⟩
              cases oe with
              | some e => simp [hgch] at h
              | none =>
                simp only [hgch] at h
                have hcm1 := gi_cb_mono render f1 (count_items ch) ch
                  (base ++ [nm]) vars fsx (cb + 1) le_rfl
                rw [hgch] at hcm1
                have hcb1 : cb + 1 ≤ cbc := hcm1
                have hcm2 := gi_cb_mono render f1 (count_items rest) rest base
                  vars fsc cbc le_rfl
                rw [h] at hcm2
                have hcb2 : cbc ≤ cb1 := hcm2
                have hrmono := gi_mono render f1 (count_items rest) rest base
                  vars fsc fs1 cbc cb1 le_rfl h
                have hd1 : fs1.dirs (base ++ [nm]) = true :=
                  hrmono.1 _ ((gi_mono render f1 (count_items ch) ch
                    (base ++ [nm]) vars fsx fsc (cb + 1) cbc le_rfl hgch).1 _
                    hdx)
                have hgp : g.dirs (base ++ [nm]) = true := by
                  rw [hg]; exact hm _ hd1
                have hmc : ∀ q, fsc.dirs q = true → F.dirs q = true :=
                  fun q hq => hm q (hrmono.1 q hq)
                have hnc : ∀ q, F.dirs q = true →
                    fsc.dirs q = true ∨ fsc.files q = none := by
                  intro q hq
                  rcases hn q hq with h1 | h1
                  · exact gi_dirs_new render f1 (count_items rest) rest base
                      vars fsc fs1 cbc cb1 le_rfl h q h1
                  · refine .inr ?_
                    cases hfc : fsc.files q with
                    | none => rfl
                    | some c =>
                      have : (fs1.files q).isSome = true :=
                        hrmono.2 q (by rw [hfc]; rfl)
                      rw [h1] at this
                      cases this
                obtain ⟨gc, hgc_eq, hgc_dirs⟩ := ih ch (base ++ [nm]) vars fsx
                  fsc (cb + 1) cbc F g (cb2 + 1) hch hgch hmc hnc hg
                obtain ⟨g', hg'eq, hg'dirs⟩ := ih rest base vars fsc fs1 cbc
                  cb1 F gc (cb2 + 1 + (cbc - (cb + 1))) hrest h hm hn
                  (fun q => by rw [hgc_dirs q]; exact hg q)
                refine ⟨g', ?_, fun q => by rw [hg'dirs q, hgc_dirs q]⟩
                simp only [generate_items, cd_noop hgp, hche',
                  Bool.false_eq_true, if_false, hgc_eq, hg'eq]
                have : cb2 + 1 + (cbc - (cb + 1)) + (cb1 - cbc) =
                    cb2 + (cb1 - cb) := by omega
                rw [this]
        | file =>
          simp only [generate_items] at h
          cases hrc : render_content render (.mk nm .file ch tpl cnt) vars with
          | error e => simp [hrc] at h
          | ok content =>
            simp only [hrc] at h
            cases hcf : create_file fs (base ++ [nm]) content f1 with
            | error e => simp [hcf] at h
            | ok fsx =>
              simp only [hcf] at h
              have hcm := gi_cb_mono render f1 (count_items rest) rest base
                vars fsx (cb + 1) le_rfl
              rw [h] at hcm
              have hcb : cb + 1 ≤ cb1 := hcm
              have hrmono := gi_mono render f1 (count_items rest) rest base
                vars fsx fs1 (cb + 1) cb1 le_rfl h
              have hfx : fsx.files (base ++ [nm]) = some content := by
                rw [cf_ok_files hcf (base ++ [nm]), if_pos rfl]
              have hf1 : (fs1.files (base ++ [nm])).isSome = true :=
                hrmono.2 _ (by rw [hfx]; rfl)
              have hgdir : g.isDir (base ++ [nm]) = false := by
                cases hgd : g.dirs (base ++ [nm]) with
                | false => exact hgd
                | true =>
                  exfalso
                  rw [hg] at hgd
                  rcases hn _ hgd with h1 | h1
                  · rcases gi_dirs_new render f1 (count_items rest) rest base
                        vars fsx fs1 (cb + 1) cb1 le_rfl h _ h1 with h2 | h2
                    · rw [cf_ok_target_not_dir hcf] at h2
                      cases h2
                    · rw [hfx] at h2
                      cases h2
                  · rw [h1] at hf1
                    cases hf1
              have hparent : (base ++ [nm]).dropLast = [] ∨
                  g.isDir ((base ++ [nm]).dropLast) = true := by
                rcases cf_ok_parent_dir hcf with h1 | h1
                · exact .inl h1
                · refine .inr ?_
                  rw [FS.isDir, hg]
                  exact hm _ (hrmono.1 _ h1)
              have hrepl := cf_replay (c := content) hgdir hparent
              obtain ⟨g', hg'eq, hg'dirs⟩ := ih rest base vars fsx fs1 (cb + 1)
                cb1 F ⟨g.dirs, fun q =>
                  if q = base ++ [nm] then some content else g.files q⟩
                (cb2 + 1) hrest h hm hn (fun q => hg q)
              refine ⟨g', ?_, fun q => hg'dirs q⟩
              simp only [generate_items, hrc, hrepl, hg'eq]
              have : cb2 + 1 + (cb1 - (cb + 1)) = cb2 + (cb1 - cb) := by omega
              rw [this]

/-- C9: if a first generation run succeeds, running `generate` a
second time with `force = true` over the filesystem state it left
produces no error and leaves the filesystem (directories and file
contents) exactly as the first run did — and fires the same number of
progress callbacks. -/
theorem claim_C9 (render : Render) (f1 : Bool) (s : ProjectStructure)
    (output : List String) (fs fs1 : FS) (n1 : Nat)
    (h : generate render f1 s output fs = (fs1, n1, none)) :
    generate render true s output fs1 = (fs1, n1, none) := by
  rw [generate] at h
  cases hcd : create_directory fs (output ++ [s.root]) with
  | error e => simp [hcd] at h
  | ok fsr =>
    simp only [hcd] at h
    have hroot_ne : output ++ [s.root] ≠ [] := by simp
    have hdir_r : fsr.dirs (output ++ [s.root]) = true :=
      cd_target_ne hroot_ne hcd
    have hmono := gi_mono render f1 (count_items s.items) s.items
      (output ++ [s.root]) s.vars fsr fs1 0 n1 le_rfl h
    have hdir_1 : fs1.dirs (output ++ [s.root]) = true := hmono.1 _ hdir_r
    obtain ⟨g', hg'eq, hg'dirs⟩ := gi_replay render f1 (count_items s.items)
      s.items (output ++ [s.root]) s.vars fsr fs1 0 n1 fs1 fs1 0 le_rfl h
      (fun q hq => hq) (fun q hq => .inl hq) (fun q => rfl)
    have hn : 0 + (n1 - 0) = n1 := by omega
    rw [hn] at hg'eq
    have hS1 := gi_files_char render f1 (count_items s.items) s.items
      (output ++ [s.root]) s.vars fsr fs1 0 n1 le_rfl h
    have hS2 := gi_files_char render true (count_items s.items) s.items
      (output ++ [s.root]) s.vars fs1 g' 0 n1 le_rfl hg'eq
    have hfe : ∀ q, g'.files q = fs1.files q := by
      intro q
      rw [hS2 q]
      cases hl : lastVal
          (writesOf render s.vars s.items (output ++ [s.root])) q with
      | some c =>
        rw [hS1 q, hl]
      | none => rfl
    have hgfs : g' = fs1 := by
      cases g' with
      | mk gd gf =>
        cases fs1 with
        | mk fd ff =>
          simp only [FS.mk.injEq]
          exact ⟨funext hg'dirs, funext hfe⟩
    rw [generate]
    simp only [cd_noop hdir_1, hg'eq, hgfs]

/-- Witness for C9 at the example structure over the empty
filesystem. -/
theorem claim_C9_witness :
    generate exRender true exampleStructure ["out"]
        (generate exRender false exampleStructure ["out"] emptyFS).1 =
      ((generate exRender false exampleStructure ["out"] emptyFS).1,
       (generate exRender false exampleStructure ["out"] emptyFS).2.1,
       none) := by
  have hgen : generate exRender false exampleStructure ["out"] emptyFS =
      ((generate exRender false exampleStructure ["out"] emptyFS).1,
       (generate exRender false exampleStructure ["out"] emptyFS).2.1, none) := by
    rw [generate_eval exRender false exampleStructure ["out"] emptyFS 5
      (by simp [exampleStructure, count_items])]
    rfl
  exact claim_C9 exRender false exampleStructure ["out"] emptyFS _ _ hgen

end ForgeTree
